import Mathlib

/-!
Shallow embedding of the core of the ImageFlasherWGPU repository
(src/ImageCreator.py and src/scraper_3.py) and proofs about it.

Conventions of the embedding:
  * Python strings are modelled as List Char, compared by the
    lexicographic order on code points, which is exactly the order the
    Python comparison operators on str implement. (Lean String literals
    do not reduce inside kernel-checked decision procedures, so the
    character-list representation is used throughout.)
  * The feedparser feed object is Option (List Entry): none models a fetch
    or parse failure (fetch_feed returning None), some es models a feed
    whose entries attribute is es.
  * Downloading and transforming one image (fetch_image) is modelled by an
    oracle function of type URL -> Option A: none is a download or decode
    failure, some a is the encoded image payload.
-/

namespace ImageFlasherWGPU

/-- Python string value: a list of Unicode code points. Comparison between
two of these by the list lexicographic order coincides with Python str
comparison. -/
abbrev PyStr := List Char

/-- Candidate feed item as consumed by fetch_new_images in
src/ImageCreator.py: the published timestamp string of the entry (the
empty list when the entry carries no published field, mirroring the
entry.get call with the empty-string default) and the image URL extracted
from the entry by extract_image_url_from_entry (none when no usable image
link is present). -/
structure Entry where
  published : PyStr
  imgUrl : Option PyStr
  deriving DecidableEq

/-- Direct embedding of is_newer, src/ImageCreator.py lines 192-195: with
no recorded watermark every item counts as new; otherwise the published
string must be strictly greater than the watermark in the lexicographic
string order Python uses for str comparison. -/
def is_newer (published : PyStr) (last_published : Option PyStr) : Bool :=
  match last_published with
  | none => true
  | some lp => decide (lp < published)

/-- Stable insertion of an entry into a list sorted by the published key:
the new entry goes after every element whose key is less than or equal to
its own, which is how a stable ascending sort places ties. -/
def insertByPublished (e : Entry) : List Entry → List Entry
  | [] => [e]
  | x :: xs =>
    if x.published ≤ e.published then x :: insertByPublished e xs
    else e :: x :: xs

/-- Embedding of the Python sorted call in fetch_new_images (line 233):
a stable ascending sort of the entries by their published string. -/
def sortEntries (l : List Entry) : List Entry :=
  l.foldl (fun acc e => insertByPublished e acc) []

/-- Embedding of the watermark update inside the loop of fetch_new_images
(lines 248-249): if the running watermark is unset or the published stamp
is strictly greater, the watermark becomes the stamp. -/
def updateLast (cur : Option PyStr) (published : PyStr) : Option PyStr :=
  match cur with
  | none => some published
  | some c => if c < published then some published else some c

/-- One iteration of the entry loop of fetch_new_images (lines 238-249),
acting on the accumulator pair of collected images and running watermark.
The newness test compares against the watermark the cycle started with,
exactly as the Python code keeps using the last_published argument. -/
def fniStep {α : Type} (f : PyStr → Option α) (last : Option PyStr)
    (acc : List α × Option PyStr) (e : Entry) : List α × Option PyStr :=
  if is_newer e.published last then
    match e.imgUrl with
    | some u =>
      match f u with
      | some img => (acc.1 ++ [img], updateLast acc.2 e.published)
      | none => acc
    | none => acc
  else acc

/-- Embedding of fetch_new_images, src/ImageCreator.py lines 227-250.
The feed argument of type Option (List Entry) is the outcome of
fetch_feed: none covers both a failed fetch and a parse error, in which
case the function returns no images and the unchanged watermark. -/
def fetch_new_images {α : Type} (f : PyStr → Option α)
    (feed : Option (List Entry)) (last_published : Option PyStr) :
    List α × Option PyStr :=
  match feed with
  | none => ([], last_published)
  | some entries =>
    (sortEntries entries).foldl (fniStep f last_published) ([], last_published)

/-- The image produced by one entry in a cycle that starts with the given
watermark: some payload exactly when the entry passes the newness test,
has an image URL, and the fetch succeeds. -/
def selEntry {α : Type} (f : PyStr → Option α) (last : Option PyStr)
    (e : Entry) : Option α :=
  if is_newer e.published last then e.imgUrl.bind f else none

/-- Published stamps of the entries successfully processed in one cycle,
in the order the cycle visits them. -/
def processedStamps {α : Type} (f : PyStr → Option α) (last : Option PyStr)
    (entries : List Entry) : List PyStr :=
  ((sortEntries entries).filter (fun e => (selEntry f last e).isSome)).map
    (fun e => e.published)

/-- One poll cycle of a source: the fetch oracle in force during the cycle
and the catalog outcome (none is a catalog failure). -/
structure Cycle (α : Type) where
  fetch : PyStr → Option α
  feed : Option (List Entry)

/-- Watermark after running one cycle from the given watermark, as
run_feed_task does with the second component of fetch_new_images. -/
def cycleStep {α : Type} (w : Option PyStr) (c : Cycle α) : Option PyStr :=
  (fetch_new_images c.fetch c.feed w).2

/-- Watermark after running a list of cycles in order, starting from the
given watermark; run_feed_task starts from none. -/
def runWatermark {α : Type} (cycles : List (Cycle α)) (w : Option PyStr) :
    Option PyStr :=
  cycles.foldl cycleStep w

/-- Stamps of the items successfully processed by one cycle started at the
given watermark. -/
def cycleStamps {α : Type} (c : Cycle α) (w : Option PyStr) : List PyStr :=
  match c.feed with
  | none => []
  | some entries => processedStamps c.fetch w entries

/-- Stamps of every item successfully processed across a run of cycles,
threading the watermark exactly as run_feed_task does. -/
def allStamps {α : Type} : List (Cycle α) → Option PyStr → List PyStr
  | [], _ => []
  | c :: cs, w => cycleStamps c w ++ allStamps cs (cycleStep w c)

/-- Order on watermarks: an unset watermark is below everything, and set
watermarks compare by the string order. -/
def wmLe (a b : Option PyStr) : Prop :=
  ∀ x, a = some x → ∃ y, b = some y ∧ x ≤ y

/-- Bounded FIFO buffer modelling the deque with maxlen of
src/scraper_3.py line 122 (SCRAPED_IMAGES, capacity 1000). -/
structure BQueue (α : Type) where
  cap : ℕ
  items : List α
  deriving DecidableEq

/-- Capacity of the queue instantiated by the repository. -/
def scrapedImagesCap : ℕ := 1000

/-- Embedding of deque.append on a deque constructed with maxlen: the item
goes to the right end and, when the buffer would exceed its capacity, the
oldest entries on the left are discarded. -/
def bq_push {α : Type} (q : BQueue α) (x : α) : BQueue α :=
  let l := q.items ++ [x]
  ⟨q.cap, l.drop (l.length - q.cap)⟩

/-- Embedding of the consumer step of image_sender, src/scraper_3.py lines
247-256: an emptiness check followed by popleft, so the pop returns none
immediately on an empty buffer and otherwise removes the oldest entry. -/
def bq_pop {α : Type} (q : BQueue α) : Option α × BQueue α :=
  match q.items with
  | [] => (none, q)
  | x :: xs => (some x, ⟨q.cap, xs⟩)

/-- Pushing a whole list of items in order, with no intervening pops. -/
def bq_pushAll {α : Type} (q : BQueue α) (xs : List α) : BQueue α :=
  xs.foldl bq_push q

/-- How a run of run_feed_task (src/ImageCreator.py lines 252-277) can
stand after some iterations: still looping, exited its loop through the
break on ConnectionClosed, or ended by an exception escaping the task. -/
inductive TaskEnd where
  | running
  | normal
  | raised
  deriving DecidableEq

/-- State of one feed task after a list of poll cycles, where each cycle
is the list of images it produced and connClosed says whether the client
connection is closed during those cycles. The task leaves its loop only
through the except branch on ConnectionClosed, which is reached exactly
when the task attempts a send (it produced at least one image) while the
connection is closed; every other exception is caught by the generic
except branch and the loop continues. No exception ever escapes. -/
def run_feed_end (connClosed : Bool) (cycles : List (List ℕ)) : TaskEnd :=
  if cycles.any (fun imgs => connClosed && !imgs.isEmpty) then TaskEnd.normal
  else TaskEnd.running

/-- The cancellation condition of image_sender, src/ImageCreator.py lines
290-293: asyncio.wait with return_when FIRST_EXCEPTION wakes the
coordinator early, and the cancel loop over pending tasks runs, only when
some feed task finished by raising an exception. -/
def first_exception_cancel (ends : List TaskEnd) : Bool :=
  ends.any (fun e => decide (e = TaskEnd.raised))

/-- Timestamp 2024-01-01 of the first scenario item. -/
def ts1 : PyStr := ['2', '0', '2', '4', '-', '0', '1', '-', '0', '1']

/-- Timestamp 2024-01-02 of the second scenario item. -/
def ts2 : PyStr := ['2', '0', '2', '4', '-', '0', '1', '-', '0', '2']

/-- Timestamp 2024-01-03 of the third scenario item. -/
def ts3 : PyStr := ['2', '0', '2', '4', '-', '0', '1', '-', '0', '3']

/-- URL of the first scenario item. -/
def url1 : PyStr := ['u', '1']

/-- URL of the second scenario item. -/
def url2 : PyStr := ['u', '2']

/-- URL of the third scenario item. -/
def url3 : PyStr := ['u', '3']

/-- The empty timestamp, standing for a missing published field. -/
def emptyTS : PyStr := []

/-- First scenario entry. -/
def entry1 : Entry := ⟨ts1, some url1⟩

/-- Second scenario entry. -/
def entry2 : Entry := ⟨ts2, some url2⟩

/-- Third scenario entry. -/
def entry3 : Entry := ⟨ts3, some url3⟩

/-- The three scenario entries, deliberately out of ascending order so the
sort inside the cycle is exercised. -/
def scenEntries : List Entry := [entry2, entry1, entry3]

/-- Fetch oracle that succeeds on all three scenario URLs. -/
def scenFetch : PyStr → Option ℕ := fun u =>
  if u = url1 then some 1
  else if u = url2 then some 2
  else if u = url3 then some 3
  else none

/-- Fetch oracle that fails on the second scenario URL and succeeds on the
other two. -/
def scenFetchFail2 : PyStr → Option ℕ := fun u =>
  if u = url2 then none else scenFetch u

/-!
Embedding of the VHS transform apply_better_vhs_effect of
src/scraper_3.py lines 21-94. Samples are exact rationals: the float32
arithmetic of the NumPy pipeline is modelled by exact rational arithmetic,
and the two uint8 color-space conversions by saturating rounding, so the
structural behaviour (shapes, definedness, clamping, use of randomness)
is preserved while rounding noise of binary floats is not modelled.
NumPy broadcasting failures and OpenCV argument errors are modelled by
none. The two hidden global random generators the code draws from
(numpy.random for the noise, the random module for the glitch rows) are
modelled as two streams of draws with explicit positions: normal is the
stream of standard normal draws consumed by np.random.normal, uniform the
stream of draws in the unit interval consumed by random.random.
-/

/-- Kernel-computable rational addition: the standard library marks the
rational field operations irreducible, so the pipeline uses these
normalised fraction operations instead; each is proved equal to the
corresponding field operation below, so every theorem can be read over
the ordinary rational arithmetic. -/
def qAdd (a b : ℚ) : ℚ := mkRat (a.num * b.den + b.num * a.den) (a.den * b.den)

/-- Kernel-computable rational multiplication. -/
def qMul (a b : ℚ) : ℚ := mkRat (a.num * b.num) (a.den * b.den)

/-- Kernel-computable rational subtraction. -/
def qSub (a b : ℚ) : ℚ := mkRat (a.num * b.den - b.num * a.den) (a.den * b.den)

/-- Kernel-computable rational negation. -/
def qNeg (a : ℚ) : ℚ := mkRat (-a.num) a.den

/-- Kernel-computable rational absolute value. -/
def qAbs (a : ℚ) : ℚ := if a.num < 0 then qNeg a else a

/-- Kernel-computable rational division. -/
def qDiv (a b : ℚ) : ℚ :=
  if 0 ≤ b.num then mkRat (a.num * b.den) (a.den * b.num.natAbs)
  else mkRat (-(a.num * b.den)) (a.den * b.num.natAbs)

/-- Kernel-computable floor of a rational. -/
def qFloor (q : ℚ) : ℤ := q.num / (q.den : ℤ)

/-- Kernel-computable rounding to the nearest integer, half upward, the
convention of the Mathlib round function. -/
def qRound (q : ℚ) : ℤ := qFloor (qAdd q (mkRat 1 2))

/-- One color channel: rows of rational samples. -/
abbrev Mat := List (List ℚ)

/-- Raw image: rows of pixels, each pixel a list of channel samples
(three for BGR). -/
abbrev Img := List (List (List ℚ))

/-- Saturating conversion to the 8-bit sample range with rounding, as
OpenCV cvtColor performs when producing a uint8 image. -/
def satCast (q : ℚ) : ℚ := max 0 (min 255 ((qRound q : ℤ) : ℚ))

/-- YCrCb triple of one blue, green, red sample triple, with the OpenCV
conversion constants and uint8 saturation. -/
def yccTriple (b g r : ℚ) : ℚ × ℚ × ℚ :=
  let y := qAdd (qAdd (qMul (mkRat 299 1000) r) (qMul (mkRat 587 1000) g))
    (qMul (mkRat 114 1000) b)
  (satCast y, satCast (qAdd (qMul (qSub r y) (mkRat 713 1000)) 128),
    satCast (qAdd (qMul (qSub b y) (mkRat 564 1000)) 128))

/-- BGR or BGRA pixel to YCrCb with the OpenCV conversion constants:
cvtColor with the BGR2YCrCb code accepts a source of three or four
channels (its conversion helper admits source channel counts three and
four), ignoring the alpha channel of a four-channel pixel; any other
layout raises. -/
def bgr2ycrcbPixel (p : List ℚ) : Option (ℚ × ℚ × ℚ) :=
  match p with
  | [b, g, r] => some (yccTriple b g r)
  | [b, g, r, _] => some (yccTriple b g r)
  | _ => none

/-- Convert one row of BGR pixels into rows of the three YCrCb channels. -/
def splitRow : List (List ℚ) → Option (List ℚ × List ℚ × List ℚ)
  | [] => some ([], [], [])
  | p :: ps => do
    let (y, cr, cb) ← bgr2ycrcbPixel p
    let (ys, crs, cbs) ← splitRow ps
    some (y :: ys, cr :: crs, cb :: cbs)

/-- Row-by-row split of the converted image into the three channel
matrices. -/
def splitImg : Img → Option (Mat × Mat × Mat)
  | [] => some ([], [], [])
  | r :: rs => do
    let (y, cr, cb) ← splitRow r
    let (ys, crs, cbs) ← splitImg rs
    some (y :: ys, cr :: crs, cb :: cbs)

/-- Embedding of the cvtColor BGR2YCrCb call plus cv2.split on lines
36-37: the image becomes three channel matrices. cvtColor asserts a
nonempty source, so an image without any pixel raises. -/
def bgr2ycrcb (frame : Img) : Option (Mat × Mat × Mat) :=
  if (frame.map List.length).sum = 0 then none else splitImg frame

/-- Sample of a row at a signed index, zero outside the row. -/
def getZ (a : List ℚ) (j : ℤ) : ℚ :=
  if j < 0 then 0 else a.getD j.toNat 0

/-- Entry i of numpy.convolve of the row with the uniform averaging
kernel of width k in mode same: the full convolution shifted by the
centring offset, with the row zero-extended. -/
def convEntry (k : ℕ) (a : List ℚ) (i : ℕ) : ℚ :=
  qDiv (((List.range k).map
    (fun (t : ℕ) => getZ a ((i : ℤ) + (((k - 1) / 2 : ℕ) : ℤ) - (t : ℤ)))).foldr qAdd 0)
    ((k : ℕ) : ℚ)

/-- Row blur of lines 41-43 and 47-50: convolution in mode same, already
restricted to the slice of the output that has the row length. -/
def convRow (k : ℕ) (a : List ℚ) : List ℚ :=
  (List.range a.length).map (convEntry k a)

/-- Row-by-row convolution of a channel. numpy.convolve in mode same
returns max of the row length and the kernel width samples, so writing
the result back into the row fails with a broadcast error whenever the
row is shorter than the kernel: that case is none. -/
def convMat (k : ℕ) : Mat → Option Mat
  | [] => some []
  | r :: rs =>
    if r.length < k then none
    else do
      let rest ← convMat k rs
      some (convRow k r :: rest)

/-- Bandwidth limiting of one channel group, guarded exactly as in the
source: a kernel width of at most one leaves the channel untouched. -/
def convStage (bw : ℤ) (m : Mat) : Option Mat :=
  if 1 < bw then convMat bw.toNat m else some m

/-- One row of shift_channel, lines 52-58: a nonnegative shift moves
samples right, a negative one left, zero-filling the exposed edge. -/
def shiftRow (s : ℤ) (a : List ℚ) : List ℚ :=
  if 0 ≤ s then
    List.replicate (min s.toNat a.length) 0 ++ a.take (a.length - s.toNat)
  else a.drop (-s).toNat ++ List.replicate (min (-s).toNat a.length) 0

/-- Embedding of shift_channel, lines 52-58. For shift zero the source
slice written into the full-width destination is the empty slice (the
slice up to index minus zero), which NumPy refuses to broadcast whenever
the channel has nonempty rows: that case is none. -/
def shift_channel (s : ℤ) (m : Mat) : Option Mat :=
  if s = 0 ∧ m.any (fun r => !r.isEmpty) then none
  else some (m.map (shiftRow s))

/-- Border index in the OpenCV default reflect-101 mode, specialised to
the offsets the 3-tap Sobel uses; a one-sample extent maps every index to
zero, as borderInterpolate does. -/
def r101 (i : ℤ) (n : ℕ) : ℕ :=
  if n ≤ 1 then 0
  else if i < 0 then (-i).toNat
  else if (n : ℤ) ≤ i then 2 * n - 2 - i.toNat
  else i.toNat

/-- Sample of a channel at a row and column index, zero when out of
range. -/
def matEntry (m : Mat) (i j : ℕ) : ℚ := (m.getD i []).getD j 0

/-- One sample of the horizontal Sobel derivative with aperture three:
smoothing weights one, two, one across rows and difference weights minus
one, zero, one across columns, with reflect-101 borders. -/
def sobelEntry (m : Mat) (h w : ℕ) (i j : ℕ) : ℚ :=
  let a := fun (di dj : ℤ) =>
    matEntry m (r101 ((i : ℤ) + di) h) (r101 ((j : ℤ) + dj) w)
  qAdd (qAdd (qSub (a (-1) 1) (a (-1) (-1)))
      (qMul 2 (qSub (a 0 1) (a 0 (-1)))))
    (qSub (a 1 1) (a 1 (-1)))

/-- Embedding of the cv2.Sobel call on line 65 (first x derivative,
kernel size three, 32-bit float output). -/
def sobelX (m : Mat) : Mat :=
  (List.range m.length).map (fun i =>
    (List.range (m.getD i []).length).map
      (fun j => sobelEntry m m.length (m.getD i []).length i j))

/-- Elementwise absolute value, the np.absolute call on line 66. -/
def absMat (m : Mat) : Mat := m.map (fun r => r.map qAbs)

/-- The cv2.addWeighted call on line 68 on float matrices: the first
matrix plus the second scaled, with weight one on the first and zero
offset. -/
def addWeighted (m : Mat) (s : ℚ) (g : Mat) : Mat :=
  List.zipWith (fun r gr => List.zipWith (fun a b => qAdd a (qMul s b)) r gr) m g

/-- State of the two hidden global random generators the transform draws
from: the stream of standard normal draws of numpy.random with its
position, and the stream of unit-interval draws of the random module with
its position. -/
structure RNGState where
  normal : ℕ → ℚ
  uniform : ℕ → ℚ
  npos : ℕ
  upos : ℕ

/-- Add scaled normal noise to one row, consuming one normal draw per
sample and returning the next stream position. -/
def noiseRow (sig : ℚ) (s : ℕ → ℚ) : ℕ → List ℚ → List ℚ × ℕ
  | p, [] => ([], p)
  | p, a :: as =>
    let rest := noiseRow sig s (p + 1) as
    ((qAdd a (qMul sig (s p))) :: rest.1, rest.2)

/-- Add scaled normal noise to a whole channel, row by row. -/
def noiseMat (sig : ℚ) (s : ℕ → ℚ) : ℕ → Mat → Mat × ℕ
  | p, [] => ([], p)
  | p, r :: rs =>
    let hd := noiseRow sig s p r
    let rest := noiseMat sig s hd.2 rs
    (hd.1 :: rest.1, rest.2)

/-- One np.random.normal call of lines 71-76: a negative scale raises a
ValueError (none); otherwise every sample receives its own scaled draw
from the global normal stream. -/
def noiseChecked (sig : ℚ) (s : ℕ → ℚ) (p : ℕ) (m : Mat) :
    Option (Mat × ℕ) :=
  if sig < 0 then none else some (noiseMat sig s p m)

/-- Python int conversion: truncation toward zero. -/
def intTrunc (q : ℚ) : ℤ := Int.tdiv q.num (q.den : ℤ)

/-- The np.roll call of lines 83-85 on one row: a circular shift right by
the given signed offset. -/
def rollRow (k : ℤ) (a : List ℚ) : List ℚ :=
  (List.range a.length).map
    (fun (i : ℕ) => a.getD (((i : ℤ) - k).emod (a.length : ℤ)).toNat 0)

/-- The glitch loop of lines 79-85 over the rows of the three channels:
each row consumes one draw of the global uniform stream for the
probability test and, when the glitch fires, a second draw for the
offset, then all three channel rows are rolled by the same offset. -/
def glitch3 (prob strength : ℚ) (w : ℕ) (u : ℕ → ℚ) :
    ℕ → List (List ℚ × List ℚ × List ℚ) →
    List (List ℚ × List ℚ × List ℚ) × ℕ
  | p, [] => ([], p)
  | p, t :: rest =>
    if u p < prob then
      let off := intTrunc (qMul (qMul strength (qSub (u (p + 1)) (mkRat 1 2))) ((w : ℕ) : ℚ))
      let r := glitch3 prob strength w u (p + 2) rest
      ((rollRow off t.1, rollRow off t.2.1, rollRow off t.2.2) :: r.1, r.2)
    else
      let r := glitch3 prob strength w u (p + 1) rest
      (t :: r.1, r.2)

/-- The np.clip call of lines 88-90: clamp every sample into the 8-bit
range. -/
def clipMat (m : Mat) : Mat :=
  m.map (fun r => r.map (fun q => max 0 (min 255 q)))

/-- The astype uint8 cast of line 92 on clipped samples: truncation. -/
def floorMat (m : Mat) : Mat :=
  m.map (fun r => r.map (fun q => ((qFloor q : ℤ) : ℚ)))

/-- YCrCb sample triple back to a BGR pixel with the OpenCV inverse
constants and uint8 saturation. -/
def ycrcb2bgrPixel (y cr cb : ℚ) : List ℚ :=
  [satCast (qAdd y (qMul (mkRat 1773 1000) (qSub cb 128))),
   satCast (qSub (qSub y (qMul (mkRat 714 1000) (qSub cr 128)))
     (qMul (mkRat 344 1000) (qSub cb 128))),
   satCast (qAdd y (qMul (mkRat 1403 1000) (qSub cr 128)))]

/-- Merge one row of the three channels back into BGR pixels. -/
def mergeRow (t : List ℚ × List ℚ × List ℚ) : List (List ℚ) :=
  (t.1.zip (t.2.1.zip t.2.2)).map (fun e => ycrcb2bgrPixel e.1 e.2.1 e.2.2)

/-- Embedding of cv2.merge plus cvtColor YCrCb2BGR on lines 92-93. -/
def ycrcb2bgr (ys crs cbs : Mat) : Img :=
  (ys.zip (crs.zip cbs)).map mergeRow

/-- Parameter record of apply_better_vhs_effect, in source order. -/
structure VHSParams where
  luma_bandwidth : ℤ
  chroma_bandwidth : ℤ
  luma_noise_level : ℚ
  chroma_noise_level : ℚ
  ghost_shift_pixels : ℤ
  ghost_strength : ℚ
  line_glitch_probability : ℚ
  line_glitch_strength : ℚ

/-- The default parameter values of the source signature. -/
def defaultVHSParams : VHSParams :=
  ⟨5, 8, 10, 20, 3, mkRat 3 10, mkRat 5 1000, mkRat 8 10⟩

/-- Geometry stages of apply_better_vhs_effect, src/scraper_3.py lines
36-68, in source order: color conversion and split (lines 36-37), luma
and chroma bandwidth limiting (lines 40-50), the fixed chroma offset
(lines 61-62) and the ghosting from the shifted Sobel magnitude (lines
65-68). None of these stages touches the random state. Returns the luma
channel after ghosting together with the two offset chroma channels. -/
def vhsGeom (pr : VHSParams) (frame : Img) : Option (Mat × Mat × Mat) := do
  let t0 ← bgr2ycrcb frame
  let y1 ← convStage pr.luma_bandwidth t0.1
  let cr1 ← convStage pr.chroma_bandwidth t0.2.1
  let cb1 ← convStage pr.chroma_bandwidth t0.2.2
  let cr2 ← shift_channel 2 cr1
  let cb2 ← shift_channel (-2) cb1
  let ghost ← shift_channel pr.ghost_shift_pixels (absMat (sobelX y1))
  some (addWeighted y1 pr.ghost_strength ghost, cr2, cb2)

/-- Noise stages of apply_better_vhs_effect, lines 71-76: three
np.random.normal calls drawing from the global normal stream in source
order (luma, then the two chroma channels), each paired with its final
stream position. -/
def vhsNoised (pr : VHSParams) (g : RNGState) (frame : Img) :
    Option ((Mat × ℕ) × (Mat × ℕ) × (Mat × ℕ)) := do
  let t ← vhsGeom pr frame
  let ny ← noiseChecked pr.luma_noise_level g.normal g.npos t.1
  let ncr ← noiseChecked pr.chroma_noise_level g.normal ny.2 t.2.1
  let ncb ← noiseChecked pr.chroma_noise_level g.normal ncr.2 t.2.2
  some (ny, ncr, ncb)

/-- Embedding of apply_better_vhs_effect, src/scraper_3.py lines 21-94:
the geometry and noise stages above, then the per-row glitch loop (lines
79-85), clipping (lines 88-90), the uint8 cast and the conversion back
to BGR (lines 92-93). Returns the output image together with the
advanced global random state; none models the exceptions the NumPy code
raises. -/
def apply_better_vhs_effect (pr : VHSParams) (g : RNGState) (frame : Img) :
    Option (Img × RNGState) := do
  let n ← vhsNoised pr g frame
  let gl := glitch3 pr.line_glitch_probability pr.line_glitch_strength
    ((n.1.1.headD []).length) g.uniform g.upos
    (n.1.1.zip (n.2.1.1.zip n.2.2.1))
  some (ycrcb2bgr (floorMat (clipMat (gl.1.map (fun t => t.1))))
      (floorMat (clipMat (gl.1.map (fun t => t.2.1))))
      (floorMat (clipMat (gl.1.map (fun t => t.2.2)))),
    ⟨g.normal, g.uniform, n.2.2.2, gl.2⟩)

/-- Image produced by the transform, with the advanced random state
dropped. -/
def vhsImgOut (pr : VHSParams) (g : RNGState) (frame : Img) : Option Img :=
  (apply_better_vhs_effect pr g frame).map (fun r => r.1)

/-- Global random state left behind by one invocation of the transform,
unchanged when the invocation raised. -/
def vhsNextRng (pr : VHSParams) (g : RNGState) (frame : Img) : RNGState :=
  match apply_better_vhs_effect pr g frame with
  | some r => r.2
  | none => g

/-- Comparator for the degenerate-parameter claim, following the words of
the specification: the pipeline in which only the fixed chroma offset
step of the transform is applied, inside the unchanged color conversion,
clipping and cast stages. -/
def chromaOffsetOnly (frame : Img) : Option Img := do
  let (y0, cr0, cb0) ← bgr2ycrcb frame
  let cr2 ← shift_channel 2 cr0
  let cb2 ← shift_channel (-2) cb0
  some (ycrcb2bgr (floorMat (clipMat y0)) (floorMat (clipMat cr2))
    (floorMat (clipMat cb2)))

/-- Well-formed image of the given height, width and three channels:
what a NumPy uint8 BGR array always satisfies. -/
def wf3 (frame : Img) (h w : ℕ) : Prop :=
  frame.length = h ∧
  ∀ row ∈ frame, row.length = w ∧ ∀ px ∈ row, px.length = 3

/-- The sample range constraint of an 8-bit image. -/
def inRange8 (frame : Img) : Prop :=
  ∀ row ∈ frame, ∀ px ∈ row, ∀ q ∈ px, 0 ≤ q ∧ q ≤ 255

/-- Condition under which the bandwidth convolutions fit in the image
width, so the mode-same writeback does not fail. -/
def convFits (pr : VHSParams) (w : ℕ) : Prop :=
  (1 < pr.luma_bandwidth → pr.luma_bandwidth.toNat ≤ w) ∧
  (1 < pr.chroma_bandwidth → pr.chroma_bandwidth.toNat ≤ w)

/-- Nested shape of an image: the per-row list of pixel arities. -/
def shapeOf (frame : Img) : List (List ℕ) :=
  frame.map (fun row => row.map List.length)

/-- A random state with constant zero streams, used in concrete runs. -/
def rng0 : RNGState := ⟨fun _ => 0, fun _ => 0, 0, 0⟩

/-- A random state whose normal stream enumerates the naturals, so
consecutive normal draws differ. -/
def rngSeq : RNGState := ⟨fun n => (n : ℚ), fun _ => 0, 0, 0⟩

/-- A one-row eight-pixel black frame with four channels per pixel, as a
decoded BGRA image presents; cvtColor BGR2YCrCb accepts it and drops the
alpha channel. -/
def imgBGRA8 : Img := [List.replicate 8 [0, 0, 0, 0]]

/-- A one-pixel black BGR image. -/
def imgBlack : Img := [[[0, 0, 0]]]

/-- A one-pixel mid-gray BGR image. -/
def imgGray : Img := [[[100, 100, 100]]]

/-- Degenerate parameters for the one-pixel witness runs: kernel widths
one, no noise, ghost shift three with zero strength, zero glitch
probability. -/
def paramsDegenerate : VHSParams := ⟨1, 1, 0, 0, 3, mkRat 3 10, 0, mkRat 8 10⟩

/-- Parameters equal to paramsDegenerate except for unit luma noise, so
the output depends on the global normal stream. -/
def paramsNoise : VHSParams := ⟨1, 1, 1, 0, 3, 0, 0, mkRat 8 10⟩

/-- Parameters equal to paramsDegenerate except for a zero ghost shift. -/
def paramsGhostZero : VHSParams := ⟨1, 1, 0, 0, 0, mkRat 3 10, 0, mkRat 8 10⟩

/-- Row lengths of a channel matrix. -/
def rowLens (m : Mat) : List ℕ := m.map List.length

/-- Total number of pixels of an image: the sum of its row lengths; this
is how many normal draws one np.random.normal call over a channel of that
shape consumes. -/
def pixCount (frame : Img) : ℕ := (frame.map List.length).sum

/-- Parameters with kernel widths one, no noise, ghost shift three with
zero strength and zero glitch probability: the degenerate setting of the
offset-only claim. -/
def paramsOffsetOnly : VHSParams := ⟨1, 1, 0, 0, 3, 0, 0, mkRat 8 10⟩

/-- A normal stream enumerating the naturals. -/
def nfA : ℕ → ℚ := fun n => (n : ℚ)

/-- A normal stream that agrees with nfA on the first three draws and
differs afterwards. -/
def nfB : ℕ → ℚ := fun n => if n < 3 then (n : ℚ) else (n : ℚ) + 7

/-- The constant zero stream. -/
def zeroStream : ℕ → ℚ := fun _ => 0

end ImageFlasherWGPU

namespace ImageFlasherWGPU

/-- The computable addition agrees with rational addition. -/
theorem qAdd_eq (a b : ℚ) : qAdd a b = a + b := by
  have ha : (a.den : ℚ) ≠ 0 := Nat.cast_ne_zero.mpr a.den_nz
  have hb : (b.den : ℚ) ≠ 0 := Nat.cast_ne_zero.mpr b.den_nz
  rw [qAdd, Rat.mkRat_eq_div]
  push_cast
  conv_rhs => rw [← Rat.num_div_den a, ← Rat.num_div_den b]
  rw [div_add_div _ _ ha hb]
  ring_nf

/-- The computable multiplication agrees with rational multiplication. -/
theorem qMul_eq (a b : ℚ) : qMul a b = a * b := by
  rw [qMul, Rat.mkRat_eq_div]
  push_cast
  conv_rhs => rw [← Rat.num_div_den a, ← Rat.num_div_den b]
  rw [div_mul_div_comm]

/-- The computable subtraction agrees with rational subtraction. -/
theorem qSub_eq (a b : ℚ) : qSub a b = a - b := by
  have ha : (a.den : ℚ) ≠ 0 := Nat.cast_ne_zero.mpr a.den_nz
  have hb : (b.den : ℚ) ≠ 0 := Nat.cast_ne_zero.mpr b.den_nz
  rw [qSub, Rat.mkRat_eq_div]
  push_cast
  conv_rhs => rw [← Rat.num_div_den a, ← Rat.num_div_den b]
  rw [div_sub_div _ _ ha hb]
  ring_nf

/-- The computable negation agrees with rational negation. -/
theorem qNeg_eq (a : ℚ) : qNeg a = -a := by
  rw [qNeg, Rat.mkRat_eq_div]
  push_cast
  conv_rhs => rw [← Rat.num_div_den a]
  rw [neg_div]

/-- The computable absolute value agrees with the rational absolute
value. -/
theorem qAbs_eq (a : ℚ) : qAbs a = |a| := by
  rw [qAbs]
  by_cases h : a.num < 0
  · have ha : a < 0 := by
      by_contra hc
      exact absurd (Rat.num_nonneg.mpr (not_lt.mp hc)) (not_le.mpr h)
    rw [if_pos h, qNeg_eq, abs_of_neg ha]
  · rw [if_neg h, abs_of_nonneg (Rat.num_nonneg.mp (not_lt.mp h))]

/-- The computable division agrees with rational division. -/
theorem qDiv_eq (a b : ℚ) : qDiv a b = a / b := by
  have ha : (a.den : ℚ) ≠ 0 := Nat.cast_ne_zero.mpr a.den_nz
  have hbd : (b.den : ℚ) ≠ 0 := Nat.cast_ne_zero.mpr b.den_nz
  rcases lt_trichotomy b.num 0 with hb | hb | hb
  · have hbq : (b.num : ℚ) < 0 := by exact_mod_cast hb
    have hbnum : (b.num : ℚ) ≠ 0 := ne_of_lt hbq
    rw [qDiv, if_neg (not_le.mpr hb), Rat.mkRat_eq_div]
    have h1 : ((a.den * b.num.natAbs : ℕ) : ℚ) = (a.den : ℚ) * (-(b.num : ℚ)) := by
      push_cast [Int.cast_natAbs]
      rw [abs_of_neg hbq]
    rw [h1]
    push_cast
    conv_rhs => rw [← Rat.num_div_den a, ← Rat.num_div_den b]
    field_simp
  · have hb0 : b = 0 := Rat.num_eq_zero.mp hb
    subst hb0
    simp [qDiv, Rat.mkRat_eq_div]
  · have hbq : (0 : ℚ) < (b.num : ℚ) := by exact_mod_cast hb
    have hbnum : (b.num : ℚ) ≠ 0 := ne_of_gt hbq
    rw [qDiv, if_pos (le_of_lt hb), Rat.mkRat_eq_div]
    have h1 : ((a.den * b.num.natAbs : ℕ) : ℚ) = (a.den : ℚ) * (b.num : ℚ) := by
      push_cast [Int.cast_natAbs]
      rw [abs_of_pos hbq]
    rw [h1]
    push_cast
    conv_rhs => rw [← Rat.num_div_den a, ← Rat.num_div_den b]
    field_simp

/-- The computable floor agrees with the rational floor. -/
theorem qFloor_eq (q : ℚ) : qFloor q = ⌊q⌋ := Rat.floor_def.symm

/-- The computable rounding agrees with the Mathlib rounding. -/
theorem qRound_eq (q : ℚ) : qRound q = round q := by
  rw [qRound, qAdd_eq, qFloor_eq, round_eq]
  norm_num [Rat.mkRat_eq_div]

end ImageFlasherWGPU

namespace ImageFlasherWGPU

/-- Membership in a stable insertion. -/
theorem mem_insertByPublished {e x : Entry} {l : List Entry} :
    x ∈ insertByPublished e l ↔ x = e ∨ x ∈ l := by
  induction l with
  | nil => simp [insertByPublished]
  | cons y ys ih =>
    by_cases h : y.published ≤ e.published
    · rw [insertByPublished, if_pos h]
      simp only [List.mem_cons, ih]
      tauto
    · rw [insertByPublished, if_neg h]
      simp only [List.mem_cons]

/-- Stable insertion preserves sortedness by the published key. -/
theorem pairwise_insertByPublished {e : Entry} {l : List Entry}
    (hl : l.Pairwise (fun a b => a.published ≤ b.published)) :
    (insertByPublished e l).Pairwise (fun a b => a.published ≤ b.published) := by
  induction l with
  | nil => simp [insertByPublished]
  | cons y ys ih =>
    rw [List.pairwise_cons] at hl
    by_cases h : y.published ≤ e.published
    · rw [insertByPublished, if_pos h]
      refine List.pairwise_cons.mpr ⟨?_, ih hl.2⟩
      intro z hz
      rcases mem_insertByPublished.mp hz with hz | hz
      · rw [hz]; exact h
      · exact hl.1 z hz
    · rw [insertByPublished, if_neg h]
      refine List.pairwise_cons.mpr ⟨?_, List.pairwise_cons.mpr hl⟩
      intro z hz
      rcases List.mem_cons.mp hz with hz | hz
      · rw [hz]; exact le_of_not_le h
      · exact le_trans (le_of_not_le h) (hl.1 z hz)

/-- The sort used by the poll cycle produces a list that is ascending in
the published key. -/
theorem sortEntries_pairwise (l : List Entry) :
    (sortEntries l).Pairwise (fun a b => a.published ≤ b.published) := by
  have aux : ∀ (l acc : List Entry),
      acc.Pairwise (fun a b => a.published ≤ b.published) →
      (l.foldl (fun acc e => insertByPublished e acc) acc).Pairwise
        (fun a b => a.published ≤ b.published) := by
    intro l
    induction l with
    | nil => intro acc h; exact h
    | cons e es ih => intro acc h; exact ih _ (pairwise_insertByPublished h)
  exact aux l [] (by simp)

/-- Unrolling of the entry loop of fetch_new_images: the collected images
are the successful picks in visit order, and the final watermark is the
fold of the update rule over the stamps of exactly the successfully
processed entries. -/
theorem fniStep_foldl {α : Type} (f : PyStr → Option α) (last : Option PyStr)
    (l : List Entry) :
    ∀ (acc : List α) (w : Option PyStr),
      l.foldl (fniStep f last) (acc, w)
        = (acc ++ l.filterMap (selEntry f last),
           ((l.filter (fun e => (selEntry f last e).isSome)).map
             (fun e => e.published)).foldl updateLast w) := by
  induction l with
  | nil => intro acc w; simp
  | cons e es ih =>
    intro acc w
    show es.foldl (fniStep f last) (fniStep f last (acc, w) e) = _
    by_cases hn : is_newer e.published last
    · cases hu : e.imgUrl with
      | none =>
        have hsel : selEntry f last e = none := by simp [selEntry, hn, hu]
        simp [fniStep, hn, hu, hsel, ih]
      | some u =>
        cases hf : f u with
        | none =>
          have hsel : selEntry f last e = none := by simp [selEntry, hn, hu, hf]
          simp [fniStep, hn, hu, hf, hsel, ih]
        | some img =>
          have hsel : selEntry f last e = some img := by simp [selEntry, hn, hu, hf]
          simp [fniStep, hn, hu, hf, hsel, ih]
    · have hsel : selEntry f last e = none := by simp [selEntry, hn]
      simp [fniStep, hn, hsel, ih]

/-- Characterisation of one poll cycle with a live catalog: the images are
the successful picks from the sorted entries, and the watermark is the
fold of the update rule over the processed stamps. -/
theorem fetch_new_images_spec {α : Type} (f : PyStr → Option α)
    (entries : List Entry) (w : Option PyStr) :
    fetch_new_images f (some entries) w
      = ((sortEntries entries).filterMap (selEntry f w),
         (processedStamps f w entries).foldl updateLast w) := by
  rw [fetch_new_images, fniStep_foldl f w (sortEntries entries) [] w,
    processedStamps]
  simp

/-- The watermark update produces a set watermark that dominates the new
stamp and the previous watermark and equals one of them. -/
theorem updateLast_spec (w : Option PyStr) (s : PyStr) :
    ∃ t, updateLast w s = some t ∧ s ≤ t ∧ (∀ x, w = some x → x ≤ t) ∧
      (t = s ∨ w = some t) := by
  cases w with
  | none =>
    refine ⟨s, rfl, le_rfl, ?_, Or.inl rfl⟩
    intro x hx
    exact Option.noConfusion hx
  | some c =>
    by_cases hcs : c < s
    · refine ⟨s, ?_, le_rfl, ?_, Or.inl rfl⟩
      · simp [updateLast, hcs]
      · intro x hx
        cases hx
        exact le_of_lt hcs
    · refine ⟨c, ?_, le_of_not_lt hcs, ?_, Or.inr rfl⟩
      · simp [updateLast, hcs]
      · intro x hx
        cases hx
        exact le_rfl

/-- Folding the watermark update over a list of stamps yields the maximum
of the stamps and the starting watermark: it is unset only when nothing
was there to begin with, and any set result dominates every stamp and the
start and is one of them. -/
theorem foldl_updateLast_spec (l : List PyStr) :
    ∀ (w : Option PyStr),
      (l.foldl updateLast w = none ↔ w = none ∧ l = []) ∧
      ∀ m, l.foldl updateLast w = some m →
        (m ∈ l ∨ w = some m) ∧ (∀ s ∈ l, s ≤ m) ∧ ∀ x, w = some x → x ≤ m := by
  induction l with
  | nil =>
    intro w
    refine ⟨by simp, ?_⟩
    intro m hm
    simp only [List.foldl_nil] at hm
    refine ⟨Or.inr hm, by simp, ?_⟩
    intro x hx
    rw [hx] at hm
    cases hm
    exact le_rfl
  | cons s rest ih =>
    intro w
    obtain ⟨t, ht, hst, hwt, hts⟩ := updateLast_spec w s
    have hfold : (s :: rest).foldl updateLast w = rest.foldl updateLast (some t) := by
      simp [List.foldl_cons, ht]
    constructor
    · rw [hfold, (ih (some t)).1]
      simp
    · intro m hm
      rw [hfold] at hm
      obtain ⟨hmem, hall, hdom⟩ := (ih (some t)).2 m hm
      have htm : t ≤ m := hdom t rfl
      refine ⟨?_, ?_, ?_⟩
      · rcases hmem with hmem | hmem
        · exact Or.inl (List.mem_cons_of_mem s hmem)
        · cases hmem
          rcases hts with hts | hts
          · exact Or.inl (by rw [hts]; exact List.mem_cons_self s rest)
          · exact Or.inr hts
      · intro x hx
        rcases List.mem_cons.mp hx with hx | hx
        · rw [hx]; exact le_trans hst htm
        · exact hall x hx
      · intro x hx
        exact le_trans (hwt x hx) htm

/-- The watermark left by one cycle is the fold of the update rule over
that cycle's processed stamps. -/
theorem cycleStep_eq_foldl {α : Type} (c : Cycle α) (w : Option PyStr) :
    cycleStep w c = (cycleStamps c w).foldl updateLast w := by
  cases hf : c.feed with
  | none => simp [cycleStep, fetch_new_images, hf, cycleStamps]
  | some es => simp [cycleStep, hf, fetch_new_images_spec, cycleStamps]

/-- The watermark ordering is transitive. -/
theorem wmLe_trans {a b c : Option PyStr} (h1 : wmLe a b) (h2 : wmLe b c) :
    wmLe a c := by
  intro x hx
  obtain ⟨y, hy, hxy⟩ := h1 x hx
  obtain ⟨z, hz, hyz⟩ := h2 y hy
  exact ⟨z, hz, le_trans hxy hyz⟩

/-- A fold of the update rule never lowers the watermark. -/
theorem wmLe_foldl_updateLast (l : List PyStr) (w : Option PyStr) :
    wmLe w (l.foldl updateLast w) := by
  intro x hx
  cases hr : l.foldl updateLast w with
  | none =>
    have := ((foldl_updateLast_spec l w).1.mp hr).1
    rw [this] at hx
    exact nomatch hx
  | some m =>
    exact ⟨m, rfl, ((foldl_updateLast_spec l w).2 m hr).2.2 x hx⟩

/-- One poll cycle never lowers the watermark. -/
theorem wmLe_cycleStep {α : Type} (w : Option PyStr) (c : Cycle α) :
    wmLe w (cycleStep w c) := by
  rw [cycleStep_eq_foldl]
  exact wmLe_foldl_updateLast _ w

/-- A run of poll cycles never lowers the watermark. -/
theorem wmLe_runWatermark {α : Type} (cs : List (Cycle α)) :
    ∀ (w : Option PyStr), wmLe w (runWatermark cs w) := by
  induction cs with
  | nil => intro w; intro x hx; exact ⟨x, hx, le_rfl⟩
  | cons c cs ih =>
    intro w
    exact wmLe_trans (wmLe_cycleStep w c) (ih (cycleStep w c))

/-- The watermark after any run of cycles is exactly the maximum of the
starting watermark and the stamps of every successfully processed item:
it is unset only when it started unset and nothing was processed, and any
set value dominates all processed stamps and the start and is one of
them. -/
theorem runWatermark_spec {α : Type} (cs : List (Cycle α)) :
    ∀ (w : Option PyStr),
      (runWatermark cs w = none ↔ w = none ∧ allStamps cs w = []) ∧
      ∀ m, runWatermark cs w = some m →
        (m ∈ allStamps cs w ∨ w = some m) ∧
        (∀ s ∈ allStamps cs w, s ≤ m) ∧ ∀ x, w = some x → x ≤ m := by
  induction cs with
  | nil =>
    intro w
    refine ⟨by simp [runWatermark, allStamps], ?_⟩
    intro m hm
    simp only [runWatermark, List.foldl_nil] at hm
    refine ⟨Or.inr hm, by simp [allStamps], ?_⟩
    intro x hx
    rw [hx] at hm
    cases hm
    exact le_rfl
  | cons c cs ih =>
    intro w
    have hrun : runWatermark (c :: cs) w = runWatermark cs (cycleStep w c) := rfl
    have hstep := foldl_updateLast_spec (cycleStamps c w) w
    have hstamps : allStamps (c :: cs) w
        = cycleStamps c w ++ allStamps cs (cycleStep w c) := rfl
    constructor
    · rw [hrun, hstamps]
      have h2 : cycleStep w c = none ↔ w = none ∧ cycleStamps c w = [] := by
        rw [cycleStep_eq_foldl]
        exact (foldl_updateLast_spec _ _).1
      rw [(ih (cycleStep w c)).1, h2]
      constructor
      · rintro ⟨⟨hw, hc⟩, ht⟩
        exact ⟨hw, by simp [hc, ht]⟩
      · rintro ⟨hw, happ⟩
        rcases List.append_eq_nil.mp happ with ⟨hc, ht⟩
        exact ⟨⟨hw, hc⟩, ht⟩
    · intro m hm
      rw [hrun] at hm
      obtain ⟨hmem, hall, hdom⟩ := (ih (cycleStep w c)).2 m hm
      rw [hstamps]
      have hcyc : cycleStep w c = (cycleStamps c w).foldl updateLast w :=
        cycleStep_eq_foldl c w
      refine ⟨?_, ?_, ?_⟩
      · rcases hmem with hmem | hmem
        · exact Or.inl (List.mem_append_right _ hmem)
        · obtain ⟨hmem2, _, _⟩ := hstep.2 m (by rw [← hcyc]; exact hmem)
          rcases hmem2 with hmem2 | hmem2
          · exact Or.inl (List.mem_append_left _ hmem2)
          · exact Or.inr hmem2
      · intro s hs
        rcases List.mem_append.mp hs with hs | hs
        · cases ht : cycleStep w c with
          | none =>
            have := ((hstep.1.mp (by rw [← hcyc, ht])).2)
            rw [this] at hs
            exact absurd hs (List.not_mem_nil s)
          | some t =>
            have hsle := (hstep.2 t (by rw [← hcyc, ht])).2.1 s hs
            exact le_trans hsle (hdom t ht)
        · exact hall s hs
      · intro x hx
        obtain ⟨y, hy, hxy⟩ := wmLe_cycleStep (α := α) w c x hx
        exact le_trans hxy (hdom y hy)

end ImageFlasherWGPU

namespace ImageFlasherWGPU

/-- Push keeps at most the capacity, whatever the starting buffer. -/
theorem bq_push_length_le {α : Type} (q : BQueue α) (x : α) :
    (bq_push q x).items.length ≤ q.cap := by
  simp only [bq_push, List.length_drop]
  omega

/-- Pushing a list into a buffer within capacity leaves exactly the most
recent capacity-many of the concatenation. -/
theorem bq_pushAll_items {α : Type} (xs : List α) :
    ∀ (q : BQueue α), q.items.length ≤ q.cap →
      (bq_pushAll q xs).items
        = (q.items ++ xs).drop ((q.items.length + xs.length) - q.cap) := by
  induction xs with
  | nil =>
    intro q h
    simp only [bq_pushAll, List.foldl_nil, List.append_nil, List.length_nil]
    rw [Nat.sub_eq_zero_of_le (by omega), List.drop_zero]
  | cons x xs ih =>
    intro q h
    have hcap : (bq_push q x).cap = q.cap := rfl
    have hitems : (bq_push q x).items
        = (q.items ++ [x]).drop ((q.items.length + 1) - q.cap) := by
      simp [bq_push]
    have hlen : (bq_push q x).items.length ≤ (bq_push q x).cap :=
      bq_push_length_le q x
    have hstep : bq_pushAll q (x :: xs) = bq_pushAll (bq_push q x) xs := rfl
    rw [hstep, ih _ hlen, hcap, hitems]
    have hk : (q.items.length + 1) - q.cap ≤ (q.items ++ [x]).length := by
      simp only [List.length_append, List.length_cons, List.length_nil]
      omega
    have h1 : List.drop ((q.items.length + 1) - q.cap) (q.items ++ [x] ++ xs)
        = List.drop ((q.items.length + 1) - q.cap) (q.items ++ [x]) ++ xs := by
      rw [List.drop_append_eq_append_drop, Nat.sub_eq_zero_of_le hk,
        List.drop_zero]
    rw [List.length_drop, ← h1, List.drop_drop]
    have harr : q.items ++ [x] ++ xs = q.items ++ x :: xs := by
      simp
    rw [harr]
    congr 1
    simp only [List.length_append, List.length_cons, List.length_nil]
    omega

/-- C2: the delivery queue keeps at most its capacity after any push and
any pop; a push never blocks and, on overflow, drops from the oldest end,
so that pushing any list into an empty queue of capacity N leaves exactly
the N most recently pushed items in push order; pop returns none
immediately on the empty queue and otherwise removes and returns the
oldest item. -/
theorem c2_queue (α : Type) (q : BQueue α) (x : α) (xs : List α) (N : ℕ) :
    ((bq_push q x).items.length ≤ q.cap) ∧
    (q.items.length ≤ q.cap → (bq_pop q).2.items.length ≤ q.cap) ∧
    ((bq_pushAll ⟨N, []⟩ xs).items = xs.drop (xs.length - N)) ∧
    (bq_pop (⟨N, []⟩ : BQueue α) = (none, ⟨N, []⟩)) ∧
    (∀ y ys, q.items = y :: ys → bq_pop q = (some y, ⟨q.cap, ys⟩)) := by
  refine ⟨bq_push_length_le q x, ?_, ?_, rfl, ?_⟩
  · intro h
    cases hq : q.items with
    | nil =>
      rw [bq_pop, hq]
      exact h
    | cons y ys =>
      rw [hq] at h
      simp only [bq_pop, hq, List.length_cons] at h ⊢
      omega
  · rw [bq_pushAll_items xs ⟨N, []⟩ (by simp)]
    simp
  · intro y ys hq
    simp [bq_pop, hq]

/-- Witness for the queue claim at a concrete queue of capacity two. -/
theorem c2_queue_witness :
    (bq_pop (⟨2, [5, 6]⟩ : BQueue ℕ)).2.items.length ≤ 2 ∧
    bq_pop (⟨2, [5, 6]⟩ : BQueue ℕ) = (some 5, ⟨2, [6]⟩) :=
  ⟨(c2_queue ℕ ⟨2, [5, 6]⟩ 0 [] 0).2.1 (by decide),
   (c2_queue ℕ ⟨2, [5, 6]⟩ 0 [] 0).2.2.2.2 5 [6] rfl⟩

/-- C3: the watermark of a source never decreases, neither across one
cycle nor across a run of cycles, and after any run started from the
unset watermark it is exactly the maximum of the stamps of the items
successfully processed across the whole run: unset when nothing was
processed, and otherwise one of the processed stamps that dominates all
of them. -/
theorem c3_watermark (α : Type) (cycles : List (Cycle α))
    (c : Cycle α) (w : Option PyStr) :
    wmLe w (cycleStep w c) ∧
    wmLe w (runWatermark cycles w) ∧
    (runWatermark cycles none = none ↔ allStamps cycles none = []) ∧
    (∀ m, runWatermark cycles none = some m →
      m ∈ allStamps cycles none ∧ ∀ s ∈ allStamps cycles none, s ≤ m) := by
  refine ⟨wmLe_cycleStep w c, wmLe_runWatermark cycles w, ?_, ?_⟩
  · rw [(runWatermark_spec cycles none).1]
    simp
  · intro m hm
    obtain ⟨hmem, hall, _⟩ := (runWatermark_spec cycles none).2 m hm
    rcases hmem with hmem | hmem
    · exact ⟨hmem, hall⟩
    · exact absurd hmem (by simp)

/-- Witness for the watermark claim: one concrete cycle over the three
scenario entries, run from the unset watermark, ends at the third stamp,
which is among the processed stamps and dominates them. -/
theorem c3_watermark_witness :
    ts3 ∈ allStamps [Cycle.mk scenFetch (some scenEntries)] none ∧
    ∀ s ∈ allStamps [Cycle.mk scenFetch (some scenEntries)] none, s ≤ ts3 :=
  (c3_watermark ℕ [Cycle.mk scenFetch (some scenEntries)]
    (Cycle.mk scenFetch (some scenEntries)) none).2.2.2 ts3 (by decide)

/-- C4: the newness test selects exactly the items with stamp strictly
above the set watermark and selects everything when it is unset; the
stamps of the items a cycle processes are ascending; and on the concrete
three-item scenario one cycle from the unset watermark processes all
three in ascending order leaving the third stamp as watermark, while a
second cycle over the same items processes none. -/
theorem c4_selection_order :
    (∀ p l : PyStr, is_newer p (some l) = true ↔ l < p) ∧
    (∀ p : PyStr, is_newer p none = true) ∧
    (∀ (α : Type) (f : PyStr → Option α) (w : Option PyStr)
      (entries : List Entry),
      (processedStamps f w entries).Pairwise (· ≤ ·)) ∧
    fetch_new_images scenFetch (some scenEntries) none = ([1, 2, 3], some ts3) ∧
    fetch_new_images scenFetch (some scenEntries) (some ts3) = ([], some ts3) := by
  refine ⟨?_, fun p => rfl, ?_, by decide, by decide⟩
  · intro p l
    simp [is_newer]
  · intro α f w entries
    rw [processedStamps]
    exact List.Pairwise.map _ (fun a b h => h)
      (List.Pairwise.filter _ (sortEntries_pairwise entries))

/-- Witness for the selection claim: the second stamp is newer than the
first, and the concrete scenario cycle from the witness watermark. -/
theorem c4_selection_order_witness :
    is_newer ts2 (some ts1) = true ∧
    fetch_new_images scenFetch (some scenEntries) none = ([1, 2, 3], some ts3) :=
  ⟨(c4_selection_order.1 ts2 ts1).mpr (by decide),
   c4_selection_order.2.2.2.1⟩

/-- C6 counterexample: an item with a missing timestamp (the empty
string) is not selected once the watermark is set: the newness test
rejects it against the first scenario stamp, refuting that missing
timestamps are treated as always-new for every watermark value. -/
theorem c6_counterexample : is_newer emptyTS (some ts1) = false := by decide

/-- C6 amended: an item with a missing timestamp (the empty string, which
sorts lowest) passes the newness test exactly when the watermark is
unset; against any set watermark it is never selected. -/
theorem c6_amended (last : Option PyStr) :
    is_newer emptyTS last = last.isNone := by
  cases last with
  | none => rfl
  | some w =>
    simp only [is_newer, emptyTS, Option.isNone_some, decide_eq_false_iff_not]
    exact fun h => List.Lex.not_nil_right _ _ h

/-- Witness for the amended missing-timestamp claim at two concrete
watermarks. -/
theorem c6_amended_witness :
    is_newer emptyTS (some ts1) = (some ts1).isNone ∧
    is_newer emptyTS none = (none : Option PyStr).isNone :=
  ⟨c6_amended (some ts1), c6_amended none⟩

/-- C8: a catalog failure (no feed) leaves the images empty and the
watermark untouched for that cycle; with a live catalog the cycle is an
itemwise filter over the sorted entries, so one failed fetch skips only
that item, contributes nothing to the watermark, and leaves later items
processed, as the concrete run with the middle fetch failing shows. -/
theorem c8_failure_isolation :
    (∀ (α : Type) (f : PyStr → Option α) (w : Option PyStr),
      fetch_new_images f none w = ([], w)) ∧
    (∀ (α : Type) (f : PyStr → Option α) (entries : List Entry)
      (w : Option PyStr),
      fetch_new_images f (some entries) w
        = ((sortEntries entries).filterMap (selEntry f w),
           (processedStamps f w entries).foldl updateLast w)) ∧
    fetch_new_images scenFetchFail2 (some scenEntries) none
      = ([1, 3], some ts3) := by
  exact ⟨fun α f w => rfl, fun α f entries w => fetch_new_images_spec f entries w,
    by decide⟩

/-- C9: after the connection closes, a feed task whose cycles keep
producing no images never reaches its ConnectionClosed break, so it keeps
running through any number of cycles; and since no feed task ever ends by
raising (every exception is caught inside its loop), the
first-exception cancellation of image_sender never fires, whatever the
connection state. -/
theorem c9_no_cancel :
    (∀ n : ℕ, run_feed_end true (List.replicate n []) = TaskEnd.running) ∧
    (∀ (closed : Bool) (css : List (List (List ℕ))),
      first_exception_cancel (css.map (run_feed_end closed)) = false) := by
  constructor
  · intro n
    rw [run_feed_end, if_neg]
    intro h
    rw [List.any_eq_true] at h
    obtain ⟨l, hl, h2⟩ := h
    rw [List.eq_of_mem_replicate hl] at h2
    simp at h2
  · intro closed css
    rw [first_exception_cancel]
    rw [List.any_eq_false]
    intro e he
    obtain ⟨cs, _, hcs⟩ := List.mem_map.mp he
    rw [← hcs, run_feed_end]
    split <;> simp

end ImageFlasherWGPU

namespace ImageFlasherWGPU

/-- Indexed reconstruction of a map over a list. -/
theorem range_map_getD {β γ : Type _} (ms : List β) (d : β) (f : β → γ) :
    (List.range ms.length).map (fun i => f (ms.getD i d)) = ms.map f := by
  induction ms with
  | nil => simp
  | cons r rs ih =>
    rw [List.length_cons, List.range_succ_eq_map, List.map_cons, List.map_map]
    refine congrArg₂ _ rfl ?_
    exact ih

/-- A rowwise transformation that keeps row lengths keeps the row length
list. -/
theorem rowLens_map_rows {f : List ℚ → List ℚ}
    (h : ∀ r, (f r).length = r.length) (m : Mat) :
    rowLens (m.map f) = rowLens m := by
  simp only [rowLens, List.map_map]
  exact List.map_congr_left (fun r _ => h r)

/-- Shifting a row preserves its length. -/
theorem shiftRow_length (s : ℤ) (a : List ℚ) :
    (shiftRow s a).length = a.length := by
  rw [shiftRow]
  split <;>
    simp only [List.length_append, List.length_replicate, List.length_take,
      List.length_drop] <;>
    omega

/-- Rolling a row preserves its length. -/
theorem rollRow_length (k : ℤ) (a : List ℚ) :
    (rollRow k a).length = a.length := by
  rw [rollRow, List.length_map, List.length_range]

/-- The mode-same convolution of a row has the row's length. -/
theorem convRow_length (k : ℕ) (a : List ℚ) :
    (convRow k a).length = a.length := by
  simp [convRow]

/-- A successful pixel conversion certifies the three- or four-channel
layout. -/
theorem bgr2ycrcbPixel_length {p : List ℚ} {t : ℚ × ℚ × ℚ}
    (h : bgr2ycrcbPixel p = some t) : p.length = 3 ∨ p.length = 4 := by
  rcases p with _ | ⟨b, _ | ⟨g, _ | ⟨r, _ | ⟨a, _ | ⟨z, rest⟩⟩⟩⟩⟩ <;>
    simp [bgr2ycrcbPixel] at h ⊢

/-- A three- or four-channel pixel converts. -/
theorem bgr2ycrcbPixel_of_length {p : List ℚ} (h : p.length = 3 ∨ p.length = 4) :
    ∃ t, bgr2ycrcbPixel p = some t := by
  rcases p with _ | ⟨b, _ | ⟨g, _ | ⟨r, _ | ⟨a, _ | ⟨z, rest⟩⟩⟩⟩⟩ <;>
    simp [bgr2ycrcbPixel] at h ⊢

/-- A successful row split yields three channel rows of the row's width
and certifies that every pixel has three or four channels. -/
theorem splitRow_eq_some {ps : List (List ℚ)} :
    ∀ {t : List ℚ × List ℚ × List ℚ}, splitRow ps = some t →
      t.1.length = ps.length ∧ t.2.1.length = ps.length ∧
      t.2.2.length = ps.length ∧
      ∀ px ∈ ps, px.length = 3 ∨ px.length = 4 := by
  induction ps with
  | nil =>
    intro t h
    simp only [splitRow, Option.some.injEq] at h
    rw [← h]
    simp
  | cons p ps ih =>
    intro t h
    rw [splitRow] at h
    cases hp : bgr2ycrcbPixel p with
    | none => rw [hp] at h; exact absurd h (by simp)
    | some ycc =>
      cases hs : splitRow ps with
      | none => rw [hp, hs] at h; exact absurd h (by simp)
      | some rest =>
        rw [hp, hs] at h
        obtain ⟨l1, l2, l3, harr⟩ := ih hs
        simp only [Option.bind_eq_bind, Option.some_bind, Option.some.injEq] at h
        rw [← h]
        refine ⟨by simp [l1], by simp [l2], by simp [l3], ?_⟩
        intro px hpx
        rcases List.mem_cons.mp hpx with hpx | hpx
        · rw [hpx]; exact bgr2ycrcbPixel_length hp
        · exact harr px hpx

/-- A row of three- or four-channel pixels splits. -/
theorem splitRow_isSome {ps : List (List ℚ)}
    (h : ∀ px ∈ ps, px.length = 3 ∨ px.length = 4) :
    ∃ t, splitRow ps = some t := by
  induction ps with
  | nil => exact ⟨([], [], []), rfl⟩
  | cons p ps ih =>
    obtain ⟨tp, hp⟩ := bgr2ycrcbPixel_of_length (h p (List.mem_cons_self p ps))
    obtain ⟨tr, hr⟩ := ih (fun px hpx => h px (List.mem_cons_of_mem p hpx))
    exact ⟨(tp.1 :: tr.1, tp.2.1 :: tr.2.1, tp.2.2 :: tr.2.2),
      by rw [splitRow, hp, hr]; rfl⟩

/-- A successful image split yields three channels whose row lengths are
the image's row widths, and certifies the three- or four-channel
layout. -/
theorem splitImg_eq_some {frame : Img} :
    ∀ {t : Mat × Mat × Mat}, splitImg frame = some t →
      rowLens t.1 = frame.map List.length ∧
      rowLens t.2.1 = frame.map List.length ∧
      rowLens t.2.2 = frame.map List.length ∧
      ∀ row ∈ frame, ∀ px ∈ row, px.length = 3 ∨ px.length = 4 := by
  induction frame with
  | nil =>
    intro t h
    simp only [splitImg, Option.some.injEq] at h
    rw [← h]
    simp [rowLens]
  | cons r rs ih =>
    intro t h
    rw [splitImg] at h
    cases hr : splitRow r with
    | none => rw [hr] at h; exact absurd h (by simp)
    | some tr =>
      cases hs : splitImg rs with
      | none => rw [hr, hs] at h; exact absurd h (by simp)
      | some ts =>
        rw [hr, hs] at h
        obtain ⟨m1, m2, m3, hrows⟩ := ih hs
        obtain ⟨l1, l2, l3, harr⟩ := splitRow_eq_some hr
        simp only [Option.bind_eq_bind, Option.some_bind, Option.some.injEq] at h
        rw [← h]
        refine ⟨?_, ?_, ?_, ?_⟩
        · simp [rowLens] at m1 ⊢; exact ⟨l1, m1⟩
        · simp [rowLens] at m2 ⊢; exact ⟨l2, m2⟩
        · simp [rowLens] at m3 ⊢; exact ⟨l3, m3⟩
        · intro row hrow
          rcases List.mem_cons.mp hrow with hrow | hrow
          · rw [hrow]; exact harr
          · exact hrows row hrow

/-- An image all of whose pixels have three or four channels splits. -/
theorem splitImg_isSome {frame : Img}
    (h : ∀ row ∈ frame, ∀ px ∈ row, px.length = 3 ∨ px.length = 4) :
    ∃ t, splitImg frame = some t := by
  induction frame with
  | nil => exact ⟨([], [], []), rfl⟩
  | cons r rs ih =>
    obtain ⟨tr, hr⟩ := splitRow_isSome (h r (List.mem_cons_self r rs))
    obtain ⟨ts, hs⟩ := ih (fun row hrow => h row (List.mem_cons_of_mem r hrow))
    exact ⟨(tr.1 :: ts.1, tr.2.1 :: ts.2.1, tr.2.2 :: ts.2.2),
      by rw [splitImg, hr, hs]; rfl⟩

/-- A successful color conversion yields three channels whose row lengths
are the image's row widths, and certifies the three- or four-channel
layout. -/
theorem bgr2ycrcb_eq_some {frame : Img} {t : Mat × Mat × Mat}
    (h : bgr2ycrcb frame = some t) :
    rowLens t.1 = frame.map List.length ∧
    rowLens t.2.1 = frame.map List.length ∧
    rowLens t.2.2 = frame.map List.length ∧
    ∀ row ∈ frame, ∀ px ∈ row, px.length = 3 ∨ px.length = 4 := by
  rw [bgr2ycrcb] at h
  split at h
  · exact Option.noConfusion h
  · exact splitImg_eq_some h

/-- A nonempty image all of whose pixels have three or four channels
converts. -/
theorem bgr2ycrcb_isSome {frame : Img}
    (h : ∀ row ∈ frame, ∀ px ∈ row, px.length = 3 ∨ px.length = 4)
    (hne : (frame.map List.length).sum ≠ 0) :
    ∃ t, bgr2ycrcb frame = some t := by
  obtain ⟨t, ht⟩ := splitImg_isSome h
  exact ⟨t, by rw [bgr2ycrcb, if_neg hne, ht]⟩

/-- A successful channel convolution preserves the row lengths. -/
theorem convMat_eq_some {k : ℕ} {m : Mat} :
    ∀ {m' : Mat}, convMat k m = some m' → rowLens m' = rowLens m := by
  induction m with
  | nil =>
    intro m' h
    simp only [convMat, Option.some.injEq] at h
    rw [← h]
  | cons r rs ih =>
    intro m' h
    rw [convMat] at h
    split at h
    · exact absurd h (by simp)
    · cases hs : convMat k rs with
      | none => rw [hs] at h; exact absurd h (by simp)
      | some rest =>
        rw [hs] at h
        simp only [Option.bind_eq_bind, Option.some_bind, Option.some.injEq] at h
        rw [← h, rowLens, rowLens, List.map_cons, List.map_cons, convRow_length]
        congr 1
        have hre := ih hs
        rw [rowLens, rowLens] at hre
        exact hre

/-- A channel whose rows all hold the kernel convolves, row by row. -/
theorem convMat_isSome {k : ℕ} {m : Mat} (h : ∀ r ∈ m, k ≤ r.length) :
    convMat k m = some (m.map (convRow k)) := by
  induction m with
  | nil => rfl
  | cons r rs ih =>
    rw [convMat, if_neg (not_lt.mpr (h r (List.mem_cons_self r rs))),
      ih (fun x hx => h x (List.mem_cons_of_mem r hx))]
    rfl


/-- A successful bandwidth stage preserves the row lengths. -/
theorem convStage_eq_some {bw : ℤ} {m m' : Mat}
    (h : convStage bw m = some m') : rowLens m' = rowLens m := by
  rw [convStage] at h
  split at h
  · exact convMat_eq_some h
  · cases h; rfl

/-- The bandwidth stage with kernel width one is the identity. -/
theorem convStage_one (m : Mat) : convStage 1 m = some m := by
  rw [convStage, if_neg (by norm_num)]

/-- The bandwidth stage succeeds when the kernel fits every row. -/
theorem convStage_isSome {bw : ℤ} {m : Mat}
    (h : 1 < bw → ∀ r ∈ m, bw.toNat ≤ r.length) :
    ∃ m', convStage bw m = some m' := by
  rw [convStage]
  split
  · exact ⟨m.map (convRow bw.toNat), convMat_isSome (h (by assumption))⟩
  · exact ⟨m, rfl⟩

/-- A successful channel shift is the rowwise shift and keeps the row
lengths. -/
theorem shift_channel_eq_some {s : ℤ} {m m' : Mat}
    (h : shift_channel s m = some m') :
    m' = m.map (shiftRow s) ∧ rowLens m' = rowLens m := by
  rw [shift_channel] at h
  split at h
  · exact absurd h (by simp)
  · cases h
    exact ⟨rfl, rowLens_map_rows (shiftRow_length s) m⟩

/-- A nonzero shift always succeeds. -/
theorem shift_channel_of_ne {s : ℤ} (hs : s ≠ 0) (m : Mat) :
    shift_channel s m = some (m.map (shiftRow s)) := by
  rw [shift_channel, if_neg]
  intro hc
  exact hs hc.1

/-- The zero shift fails on any channel with a nonempty row, as the NumPy
writeback of the empty slice does. -/
theorem shift_channel_zero {m : Mat} {r : List ℚ} (hr : r ∈ m)
    (hne : r ≠ []) : shift_channel 0 m = none := by
  rw [shift_channel, if_pos]
  refine ⟨rfl, List.any_eq_true.mpr ⟨r, hr, ?_⟩⟩
  simp [hne]

end ImageFlasherWGPU

namespace ImageFlasherWGPU

/-- The Sobel stage preserves the row lengths. -/
theorem rowLens_sobelX (m : Mat) : rowLens (sobelX m) = rowLens m := by
  rw [sobelX, rowLens, rowLens, List.map_map]
  refine Eq.trans (List.map_congr_left ?_) (range_map_getD m [] List.length)
  intro i _
  simp

/-- The absolute-value stage preserves the row lengths. -/
theorem rowLens_absMat (m : Mat) : rowLens (absMat m) = rowLens m :=
  rowLens_map_rows (fun r => List.length_map r qAbs) m

/-- The clipping stage preserves the row lengths. -/
theorem rowLens_clipMat (m : Mat) : rowLens (clipMat m) = rowLens m :=
  rowLens_map_rows (fun r => List.length_map r _) m

/-- The uint8 cast stage preserves the row lengths. -/
theorem rowLens_floorMat (m : Mat) : rowLens (floorMat m) = rowLens m :=
  rowLens_map_rows (fun r => List.length_map r _) m

/-- The ghosting addition preserves the row lengths whenever the ghost
channel has the same row lengths. -/
theorem rowLens_addWeighted {m g : Mat} (s : ℚ)
    (h : rowLens g = rowLens m) :
    rowLens (addWeighted m s g) = rowLens m := by
  induction m generalizing g with
  | nil => simp [addWeighted]
  | cons r rs ih =>
    cases g with
    | nil => simp [rowLens] at h
    | cons gr grs =>
      simp only [rowLens, List.map_cons, List.cons.injEq] at h
      simp only [addWeighted, List.zipWith_cons_cons, rowLens, List.map_cons,
        List.cons.injEq]
      refine ⟨by rw [List.length_zipWith]; omega, ?_⟩
      have := ih (g := grs) (by simpa [rowLens] using h.2)
      simpa [addWeighted, rowLens] using this

/-- Adding a ghost channel of zero strength changes nothing. -/
theorem qAdd_qMul_zero (a x : ℚ) : qAdd a (qMul 0 x) = a := by
  rw [qAdd_eq, qMul_eq]
  ring

/-- The ghosting addition with zero strength is the identity when the
ghost channel has the same row lengths. -/
theorem addWeighted_zero {m g : Mat} (h : rowLens g = rowLens m) :
    addWeighted m 0 g = m := by
  induction m generalizing g with
  | nil => simp [addWeighted]
  | cons r rs ih =>
    cases g with
    | nil => simp [rowLens] at h
    | cons gr grs =>
      simp only [rowLens, List.map_cons, List.cons.injEq] at h
      simp only [addWeighted, List.zipWith_cons_cons, List.cons.injEq]
      constructor
      · have hlen : gr.length = r.length := h.1
        clear ih h
        induction r generalizing gr with
        | nil => simp
        | cons x xs ihr =>
          cases gr with
          | nil => simp at hlen
          | cons b bs =>
            simp only [List.zipWith_cons_cons, List.cons.injEq]
            exact ⟨qAdd_qMul_zero x b, ihr bs (by simpa using hlen)⟩
      · have := ih (g := grs) (by simpa [rowLens] using h.2)
        simpa [addWeighted] using this

/-- Length and final stream position of the noise over one row. -/
theorem noiseRow_spec (sig : ℚ) (s : ℕ → ℚ) (a : List ℚ) :
    ∀ (p : ℕ), (noiseRow sig s p a).1.length = a.length ∧
      (noiseRow sig s p a).2 = p + a.length := by
  induction a with
  | nil => intro p; simp [noiseRow]
  | cons x xs ih =>
    intro p
    simp only [noiseRow, List.length_cons]
    exact ⟨by rw [(ih (p + 1)).1], by rw [(ih (p + 1)).2]; omega⟩

/-- Row lengths and final stream position of the noise over a channel. -/
theorem noiseMat_spec (sig : ℚ) (s : ℕ → ℚ) (m : Mat) :
    ∀ (p : ℕ), rowLens (noiseMat sig s p m).1 = rowLens m ∧
      (noiseMat sig s p m).2 = p + (rowLens m).sum := by
  induction m with
  | nil => intro p; simp [noiseMat, rowLens]
  | cons r rs ih =>
    intro p
    obtain ⟨h1, h2⟩ := noiseRow_spec sig s r p
    obtain ⟨h3, h4⟩ := ih (noiseRow sig s p r).2
    simp only [rowLens] at h3 h4
    simp only [noiseMat, rowLens, List.map_cons, List.cons.injEq, List.sum_cons]
    refine ⟨⟨h1, h3⟩, ?_⟩
    rw [h4, h2]
    omega

/-- Noise with zero scale changes no sample in a row. -/
theorem noiseRow_zero (s : ℕ → ℚ) (a : List ℚ) :
    ∀ (p : ℕ), (noiseRow 0 s p a).1 = a := by
  induction a with
  | nil => intro p; rfl
  | cons x xs ih =>
    intro p
    simp only [noiseRow]
    rw [qAdd_qMul_zero x (s p), ih (p + 1)]

/-- Noise with zero scale changes no sample in a channel. -/
theorem noiseMat_zero (s : ℕ → ℚ) (m : Mat) :
    ∀ (p : ℕ), (noiseMat 0 s p m).1 = m := by
  induction m with
  | nil => intro p; rfl
  | cons r rs ih =>
    intro p
    simp only [noiseMat]
    rw [noiseRow_zero s r p, ih _]

/-- The noise over a row depends only on the draws it consumes. -/
theorem noiseRow_congr {s1 s2 : ℕ → ℚ} (sig : ℚ) (a : List ℚ) :
    ∀ (p : ℕ), (∀ k, p ≤ k → k < p + a.length → s1 k = s2 k) →
      noiseRow sig s1 p a = noiseRow sig s2 p a := by
  induction a with
  | nil => intro p _; rfl
  | cons x xs ih =>
    intro p h
    simp only [noiseRow]
    rw [h p le_rfl (by simp only [List.length_cons]; omega),
      ih (p + 1) (fun k hk1 hk2 => h k (by omega)
        (by simp only [List.length_cons]; omega))]

/-- The noise over a channel depends only on the draws it consumes. -/
theorem noiseMat_congr {s1 s2 : ℕ → ℚ} (sig : ℚ) (m : Mat) :
    ∀ (p : ℕ), (∀ k, p ≤ k → k < p + (rowLens m).sum → s1 k = s2 k) →
      noiseMat sig s1 p m = noiseMat sig s2 p m := by
  induction m with
  | nil => intro p _; rfl
  | cons r rs ih =>
    intro p h
    have hsum : (rowLens (r :: rs)).sum = r.length + (rowLens rs).sum := by
      simp [rowLens]
    have hpos2 := (noiseRow_spec sig s2 r p).2
    have hr : noiseRow sig s1 p r = noiseRow sig s2 p r :=
      noiseRow_congr sig r p (fun k hk1 hk2 => h k hk1 (by omega))
    simp only [noiseMat]
    rw [hr, ih (noiseRow sig s2 p r).2
      (fun k hk1 hk2 => h k (by omega) (by omega))]

/-- The glitch loop preserves the lengths of all three channel rows. -/
theorem glitch3_shape (prob st : ℚ) (w : ℕ) (u : ℕ → ℚ)
    (l : List (List ℚ × List ℚ × List ℚ)) :
    ∀ (p : ℕ),
      (glitch3 prob st w u p l).1.map
          (fun t => (t.1.length, t.2.1.length, t.2.2.length))
        = l.map (fun t => (t.1.length, t.2.1.length, t.2.2.length)) := by
  induction l with
  | nil => intro p; rfl
  | cons t rest ih =>
    intro p
    rw [glitch3]
    split
    · simp [rollRow_length, ih]
    · simp [ih]

/-- When no draw can fall under the glitch probability the glitch loop
returns its input, consuming one draw per row. -/
theorem glitch3_id (prob st : ℚ) (w : ℕ) (u : ℕ → ℚ)
    (hu : ∀ k, ¬ u k < prob) (l : List (List ℚ × List ℚ × List ℚ)) :
    ∀ (p : ℕ), glitch3 prob st w u p l = (l, p + l.length) := by
  induction l with
  | nil => intro p; simp [glitch3]
  | cons t rest ih =>
    intro p
    rw [glitch3, if_neg (hu p), ih (p + 1)]
    simp only [List.length_cons]
    congr 1
    omega

/-- The glitch loop depends only on the draws it can consume: at most two
per row. -/
theorem glitch3_congr (prob st : ℚ) (w : ℕ) {u1 u2 : ℕ → ℚ}
    (l : List (List ℚ × List ℚ × List ℚ)) :
    ∀ (p : ℕ), (∀ k, p ≤ k → k < p + 2 * l.length → u1 k = u2 k) →
      glitch3 prob st w u1 p l = glitch3 prob st w u2 p l := by
  induction l with
  | nil => intro p _; rfl
  | cons t rest ih =>
    intro p h
    have h0 : u1 p = u2 p := h p le_rfl (by simp only [List.length_cons]; omega)
    rw [glitch3, glitch3, ← h0]
    by_cases hc : u1 p < prob
    · rw [if_pos hc, if_pos hc]
      have h1 : u1 (p + 1) = u2 (p + 1) :=
        h (p + 1) (by omega) (by simp only [List.length_cons]; omega)
      rw [← h1, ih (p + 2) (fun k hk1 hk2 => h k (by omega)
        (by simp only [List.length_cons] at hk2 ⊢; omega))]
    · rw [if_neg hc, if_neg hc, ih (p + 1) (fun k hk1 hk2 => h k (by omega)
        (by simp only [List.length_cons] at hk2 ⊢; omega))]

/-- Projections of the zip of three equally long channel matrices. -/
theorem zip3_maps : ∀ (a b c : Mat), b.length = a.length →
    c.length = a.length →
    ((a.zip (b.zip c)).map (fun t => t.1) = a ∧
     (a.zip (b.zip c)).map (fun t => t.2.1) = b ∧
     (a.zip (b.zip c)).map (fun t => t.2.2) = c) := by
  intro a
  induction a with
  | nil =>
    intro b c hb hc
    rw [List.length_eq_zero.mp hb, List.length_eq_zero.mp hc]
    simp
  | cons x xs ih =>
    intro b c hb hc
    cases b with
    | nil => simp at hb
    | cons y ys =>
      cases c with
      | nil => simp at hc
      | cons z zs =>
        simp only [List.zip_cons_cons, List.map_cons]
        obtain ⟨h1, h2, h3⟩ := ih ys zs (by simpa using hb) (by simpa using hc)
        exact ⟨by rw [h1], by rw [h2], by rw [h3]⟩

/-- Pixel lengths of one merged row. -/
theorem mergeRow_lens (t : List ℚ × List ℚ × List ℚ)
    (h1 : t.2.1.length = t.1.length) (h2 : t.2.2.length = t.1.length) :
    (mergeRow t).map List.length = List.replicate t.1.length 3 := by
  have hlen : (t.1.zip (t.2.1.zip t.2.2)).length = t.1.length := by
    simp only [List.length_zip]
    omega
  refine List.eq_replicate_iff.mpr ⟨by simp [mergeRow, hlen], ?_⟩
  intro b hb
  rw [mergeRow, List.map_map] at hb
  obtain ⟨e, _, he⟩ := List.mem_map.mp hb
  rw [← he]
  rfl

/-- Shape of the conversion back to BGR: one pixel of three channels per
sample of the luma channel. -/
theorem ycrcb2bgr_shape : ∀ (ys crs cbs : Mat), rowLens crs = rowLens ys →
    rowLens cbs = rowLens ys →
    shapeOf (ycrcb2bgr ys crs cbs)
      = (rowLens ys).map (fun n => List.replicate n 3) := by
  intro ys
  induction ys with
  | nil =>
    intro crs cbs h1 h2
    simp only [rowLens, List.map_nil, List.map_eq_nil_iff] at h1 h2
    rw [h1, h2]
    rfl
  | cons y yr ih =>
    intro crs cbs h1 h2
    cases crs with
    | nil => simp [rowLens] at h1
    | cons cr crr =>
      cases cbs with
      | nil => simp [rowLens] at h2
      | cons cb cbr =>
        simp only [rowLens, List.map_cons, List.cons.injEq] at h1 h2
        rw [ycrcb2bgr, List.zip_cons_cons, List.zip_cons_cons, List.map_cons]
        simp only [shapeOf, rowLens, List.map_cons, List.cons.injEq]
        refine ⟨mergeRow_lens (y, cr, cb) h1.1 h2.1, ?_⟩
        have := ih crr cbr (by simpa [rowLens] using h1.2)
          (by simpa [rowLens] using h2.2)
        simpa [ycrcb2bgr, shapeOf, rowLens] using this

/-- Saturated samples are nonnegative. -/
theorem satCast_nonneg (q : ℚ) : 0 ≤ satCast q := le_max_left 0 _

/-- Saturated samples are at most 255. -/
theorem satCast_le_255 (q : ℚ) : satCast q ≤ 255 :=
  max_le (by norm_num) (min_le_left _ _)

/-- Every sample of a converted image lies in the 8-bit range. -/
theorem inRange8_ycrcb2bgr (ys crs cbs : Mat) :
    inRange8 (ycrcb2bgr ys crs cbs) := by
  intro row hrow px hpx q hq
  rw [ycrcb2bgr] at hrow
  obtain ⟨t, _, ht⟩ := List.mem_map.mp hrow
  rw [← ht, mergeRow] at hpx
  obtain ⟨e, _, he⟩ := List.mem_map.mp hpx
  rw [← he, ycrcb2bgrPixel] at hq
  simp only [List.mem_cons, List.not_mem_nil, or_false] at hq
  rcases hq with hq | hq | hq <;>
    · rw [hq]
      exact ⟨satCast_nonneg _, satCast_le_255 _⟩

/-- The shape of a three-channel image is its widths list with pixel
arity three. -/
theorem shapeOf_eq_of_arity {frame : Img}
    (h : ∀ row ∈ frame, ∀ px ∈ row, px.length = 3) :
    shapeOf frame = (frame.map List.length).map (fun n => List.replicate n 3) := by
  rw [shapeOf, List.map_map]
  apply List.map_congr_left
  intro row hrow
  refine List.eq_replicate_iff.mpr ⟨by simp, ?_⟩
  intro b hb
  obtain ⟨px, hpx, hpb⟩ := List.mem_map.mp hb
  rw [← hpb]
  exact h row hrow px hpx

end ImageFlasherWGPU

namespace ImageFlasherWGPU

/-- A successful noise call is the unchecked noise. -/
theorem noiseChecked_eq_some {sig : ℚ} {s : ℕ → ℚ} {p : ℕ} {m : Mat}
    {v : Mat × ℕ} (h : noiseChecked sig s p m = some v) :
    v = noiseMat sig s p m := by
  rw [noiseChecked] at h
  split at h
  · exact absurd h (by simp)
  · exact (Option.some.inj h).symm

/-- Row lengths of the first projection of a triple list. -/
theorem rowLens_map_fst (l : List (List ℚ × List ℚ × List ℚ)) :
    rowLens (l.map (fun t => t.1))
      = (l.map (fun t => (t.1.length, t.2.1.length, t.2.2.length))).map
          (fun tr => tr.1) := by
  rw [rowLens, List.map_map, List.map_map]
  rfl

/-- Row lengths of the second projection of a triple list. -/
theorem rowLens_map_snd (l : List (List ℚ × List ℚ × List ℚ)) :
    rowLens (l.map (fun t => t.2.1))
      = (l.map (fun t => (t.1.length, t.2.1.length, t.2.2.length))).map
          (fun tr => tr.2.1) := by
  rw [rowLens, List.map_map, List.map_map]
  rfl

/-- Row lengths of the third projection of a triple list. -/
theorem rowLens_map_thd (l : List (List ℚ × List ℚ × List ℚ)) :
    rowLens (l.map (fun t => t.2.2))
      = (l.map (fun t => (t.1.length, t.2.1.length, t.2.2.length))).map
          (fun tr => tr.2.2) := by
  rw [rowLens, List.map_map, List.map_map]
  rfl

/-- Row lengths of the three channels recovered after the glitch loop. -/
theorem rowLens_glitch_unzip (prob st : ℚ) (w : ℕ) (u : ℕ → ℚ) (p : ℕ)
    (a b c : Mat) (hb : b.length = a.length) (hc : c.length = a.length) :
    rowLens ((glitch3 prob st w u p (a.zip (b.zip c))).1.map (fun t => t.1))
        = rowLens a ∧
    rowLens ((glitch3 prob st w u p (a.zip (b.zip c))).1.map (fun t => t.2.1))
        = rowLens b ∧
    rowLens ((glitch3 prob st w u p (a.zip (b.zip c))).1.map (fun t => t.2.2))
        = rowLens c := by
  obtain ⟨hz1, hz2, hz3⟩ := zip3_maps a b c hb hc
  have hsh := glitch3_shape prob st w u (a.zip (b.zip c)) p
  refine ⟨?_, ?_, ?_⟩
  · rw [rowLens_map_fst, hsh, ← rowLens_map_fst, hz1]
  · rw [rowLens_map_snd, hsh, ← rowLens_map_snd, hz2]
  · rw [rowLens_map_thd, hsh, ← rowLens_map_thd, hz3]

/-- Length of the row length list. -/
theorem length_rowLens (m : Mat) : (rowLens m).length = m.length := by
  rw [rowLens, List.length_map]

/-- C1 counterexample: cvtColor BGR2YCrCb accepts the four-channel BGRA
layout and drops the alpha channel, so on a one-row eight-pixel
four-channel frame the transform with its default parameters returns an
image whose pixels all have three channels, while the input pixels have
four: the output does not have the channel count of the input. -/
theorem c1_counterexample :
    (vhsImgOut defaultVHSParams rng0 imgBGRA8).map shapeOf
        = some [List.replicate 8 3] ∧
    shapeOf imgBGRA8 = [List.replicate 8 4] := by
  constructor
  · decide
  · decide

/-- A successful geometry pipeline certifies the three- or four-channel
layout and returns channels whose row lengths are the frame's row
widths. -/
theorem vhsGeom_eq_some {pr : VHSParams} {frame : Img} {t : Mat × Mat × Mat}
    (h : vhsGeom pr frame = some t) :
    rowLens t.1 = frame.map List.length ∧
    rowLens t.2.1 = frame.map List.length ∧
    rowLens t.2.2 = frame.map List.length ∧
    ∀ row ∈ frame, ∀ px ∈ row, px.length = 3 ∨ px.length = 4 := by
  rw [vhsGeom] at h
  cases h0 : bgr2ycrcb frame with
  | none => rw [h0] at h; exact Option.noConfusion h
  | some t0 =>
  rw [h0] at h
  simp only [Option.bind_eq_bind, Option.some_bind] at h
  obtain ⟨hL0, hC0, hB0, harr⟩ := bgr2ycrcb_eq_some h0
  cases h1 : convStage pr.luma_bandwidth t0.1 with
  | none => rw [h1] at h; exact Option.noConfusion h
  | some y1 =>
  rw [h1] at h
  simp only [Option.some_bind] at h
  cases h2 : convStage pr.chroma_bandwidth t0.2.1 with
  | none => rw [h2] at h; exact Option.noConfusion h
  | some cr1 =>
  rw [h2] at h
  simp only [Option.some_bind] at h
  cases h3 : convStage pr.chroma_bandwidth t0.2.2 with
  | none => rw [h3] at h; exact Option.noConfusion h
  | some cb1 =>
  rw [h3] at h
  simp only [Option.some_bind] at h
  cases h4 : shift_channel 2 cr1 with
  | none => rw [h4] at h; exact Option.noConfusion h
  | some cr2 =>
  rw [h4] at h
  simp only [Option.some_bind] at h
  cases h5 : shift_channel (-2) cb1 with
  | none => rw [h5] at h; exact Option.noConfusion h
  | some cb2 =>
  rw [h5] at h
  simp only [Option.some_bind] at h
  cases h6 : shift_channel pr.ghost_shift_pixels (absMat (sobelX y1)) with
  | none => rw [h6] at h; exact Option.noConfusion h
  | some ghost =>
  rw [h6] at h
  simp only [Option.some_bind] at h
  replace h := Option.some.inj h
  have ht1 : t.1 = addWeighted y1 pr.ghost_strength ghost := by rw [← h]
  have ht2 : t.2.1 = cr2 := by rw [← h]
  have ht3 : t.2.2 = cb2 := by rw [← h]
  have hGy : rowLens ghost = rowLens y1 := by
    rw [(shift_channel_eq_some h6).2, rowLens_absMat, rowLens_sobelX]
  refine ⟨?_, ?_, ?_, harr⟩
  · rw [ht1, rowLens_addWeighted _ hGy, convStage_eq_some h1, hL0]
  · rw [ht2, (shift_channel_eq_some h4).2, convStage_eq_some h2, hC0]
  · rw [ht3, (shift_channel_eq_some h5).2, convStage_eq_some h3, hB0]

/-- A successful noise pipeline comes from a successful geometry pipeline
and three unchecked noise passes, with all row lengths preserved. -/
theorem vhsNoised_eq_some {pr : VHSParams} {g : RNGState} {frame : Img}
    {n : (Mat × ℕ) × (Mat × ℕ) × (Mat × ℕ)}
    (h : vhsNoised pr g frame = some n) :
    ∃ t, vhsGeom pr frame = some t ∧
      n.1 = noiseMat pr.luma_noise_level g.normal g.npos t.1 ∧
      n.2.1 = noiseMat pr.chroma_noise_level g.normal n.1.2 t.2.1 ∧
      n.2.2 = noiseMat pr.chroma_noise_level g.normal n.2.1.2 t.2.2 ∧
      rowLens n.1.1 = frame.map List.length ∧
      rowLens n.2.1.1 = frame.map List.length ∧
      rowLens n.2.2.1 = frame.map List.length ∧
      ∀ row ∈ frame, ∀ px ∈ row, px.length = 3 ∨ px.length = 4 := by
  rw [vhsNoised] at h
  cases hg : vhsGeom pr frame with
  | none => rw [hg] at h; exact Option.noConfusion h
  | some t =>
  rw [hg] at h
  simp only [Option.bind_eq_bind, Option.some_bind] at h
  obtain ⟨hr1, hr2, hr3, harr⟩ := vhsGeom_eq_some hg
  cases h7 : noiseChecked pr.luma_noise_level g.normal g.npos t.1 with
  | none => rw [h7] at h; exact Option.noConfusion h
  | some ny =>
  rw [h7] at h
  simp only [Option.some_bind] at h
  cases h8 : noiseChecked pr.chroma_noise_level g.normal ny.2 t.2.1 with
  | none => rw [h8] at h; exact Option.noConfusion h
  | some ncr =>
  rw [h8] at h
  simp only [Option.some_bind] at h
  cases h9 : noiseChecked pr.chroma_noise_level g.normal ncr.2 t.2.2 with
  | none => rw [h9] at h; exact Option.noConfusion h
  | some ncb =>
  rw [h9] at h
  simp only [Option.some_bind] at h
  replace h := Option.some.inj h
  have hn1 : n.1 = ny := by rw [← h]
  have hn2 : n.2.1 = ncr := by rw [← h]
  have hn3 : n.2.2 = ncb := by rw [← h]
  refine ⟨t, rfl, ?_, ?_, ?_, ?_, ?_, ?_, harr⟩
  · rw [hn1, noiseChecked_eq_some h7]
  · rw [hn2, hn1, noiseChecked_eq_some h8]
  · rw [hn3, hn2, noiseChecked_eq_some h9]
  · rw [hn1, noiseChecked_eq_some h7, (noiseMat_spec _ _ _ _).1, hr1]
  · rw [hn2, noiseChecked_eq_some h8, (noiseMat_spec _ _ _ _).1, hr2]
  · rw [hn3, noiseChecked_eq_some h9, (noiseMat_spec _ _ _ _).1, hr3]

/-- C1 amended: whenever the transform returns an image at all, that
image has the height and row widths of the input, every one of its pixels
has exactly three channels, and every sample lies in the 8-bit range; in
particular the channel count of the input is preserved exactly when the
input is three-channel, while a four-channel input of sufficient width
yields a three-channel output, the alpha channel dropped by cvtColor.
The unqualified claim also fails to be total: the transform raises on
empty images, on pixel layouts other than three or four channels, on
widths smaller than an active bandwidth kernel, on a zero ghost shift
and on negative noise levels. -/
theorem c1_amended (pr : VHSParams) (g : RNGState) (frame : Img) (out : Img)
    (h : vhsImgOut pr g frame = some out) :
    shapeOf out = (frame.map List.length).map (fun n => List.replicate n 3) ∧
    inRange8 out ∧
    ((∀ row ∈ frame, ∀ px ∈ row, px.length = 3) →
      shapeOf out = shapeOf frame) := by
  rw [vhsImgOut] at h
  cases happ : apply_better_vhs_effect pr g frame with
  | none => rw [happ] at h; exact Option.noConfusion h
  | some res =>
  rw [happ, Option.map_some'] at h
  replace h := Option.some.inj h
  rw [apply_better_vhs_effect] at happ
  cases hn : vhsNoised pr g frame with
  | none => rw [hn] at happ; exact Option.noConfusion happ
  | some n =>
  rw [hn] at happ
  simp only [Option.bind_eq_bind, Option.some_bind] at happ
  replace happ := Option.some.inj happ
  obtain ⟨t, hg, hny, hncr, hncb, hR1, hR2, hR3, harr⟩ := vhsNoised_eq_some hn
  have hlb : n.2.1.1.length = n.1.1.length := by
    rw [← length_rowLens, ← length_rowLens n.1.1, hR2, hR1]
  have hlc : n.2.2.1.length = n.1.1.length := by
    rw [← length_rowLens, ← length_rowLens n.1.1, hR3, hR1]
  obtain ⟨hu1, hu2, hu3⟩ := rowLens_glitch_unzip pr.line_glitch_probability
    pr.line_glitch_strength ((n.1.1.headD []).length) g.uniform g.upos
    n.1.1 n.2.1.1 n.2.2.1 hlb hlc
  have hout : out
      = ycrcb2bgr
          (floorMat (clipMat
            ((glitch3 pr.line_glitch_probability pr.line_glitch_strength
              ((n.1.1.headD []).length) g.uniform g.upos
              (n.1.1.zip (n.2.1.1.zip n.2.2.1))).1.map (fun t => t.1))))
          (floorMat (clipMat
            ((glitch3 pr.line_glitch_probability pr.line_glitch_strength
              ((n.1.1.headD []).length) g.uniform g.upos
              (n.1.1.zip (n.2.1.1.zip n.2.2.1))).1.map (fun t => t.2.1))))
          (floorMat (clipMat
            ((glitch3 pr.line_glitch_probability pr.line_glitch_strength
              ((n.1.1.headD []).length) g.uniform g.upos
              (n.1.1.zip (n.2.1.1.zip n.2.2.1))).1.map (fun t => t.2.2)))) := by
    rw [← h, ← happ]
  have hshape : shapeOf out
      = (frame.map List.length).map (fun n => List.replicate n 3) := by
    rw [hout, ycrcb2bgr_shape _ _ _
      (by rw [rowLens_floorMat, rowLens_clipMat, hu2, hR2,
        rowLens_floorMat, rowLens_clipMat, hu1, hR1])
      (by rw [rowLens_floorMat, rowLens_clipMat, hu3, hR3,
        rowLens_floorMat, rowLens_clipMat, hu1, hR1]),
      rowLens_floorMat, rowLens_clipMat, hu1, hR1]
  refine ⟨hshape, ?_, ?_⟩
  · rw [hout]
    exact inRange8_ycrcb2bgr _ _ _
  · intro h3
    rw [hshape, shapeOf_eq_of_arity h3]

end ImageFlasherWGPU

namespace ImageFlasherWGPU

/-- Witness for the amended shape claim: the transform on a one-pixel
black frame with degenerate parameters returns a one-pixel three-channel
image whose shape matches and whose samples are in range. -/
theorem c1_amended_witness :
    shapeOf [[[(0 : ℚ), 135, 0]]]
        = (imgBlack.map List.length).map (fun n => List.replicate n 3) ∧
    inRange8 [[[(0 : ℚ), 135, 0]]] ∧
    ((∀ row ∈ imgBlack, ∀ px ∈ row, px.length = 3) →
      shapeOf [[[(0 : ℚ), 135, 0]]] = shapeOf imgBlack) :=
  c1_amended paramsDegenerate rng0 imgBlack [[[(0 : ℚ), 135, 0]]] (by decide)

/-- C10: the zero shift never returns the unchanged channel: on any
channel with a nonempty row it fails as the NumPy broadcast does, and the
whole transform invoked with a zero ghost shift on a well-formed image
(into whose width any active bandwidth kernel fits) raises instead of
performing a degenerate no-op shift. -/
theorem c10_shift_zero (m : Mat) (r : List ℚ) (pr : VHSParams)
    (g : RNGState) (frame : Img) (h w : ℕ) (hr : r ∈ m) (hne : r ≠ [])
    (hwf : wf3 frame h w) (hh : 0 < h) (hw : 0 < w)
    (hfits : convFits pr w) (hgs : pr.ghost_shift_pixels = 0) :
    shift_channel 0 m = none ∧ apply_better_vhs_effect pr g frame = none := by
  refine ⟨shift_channel_zero hr hne, ?_⟩
  rw [apply_better_vhs_effect]
  suffices hvn : vhsNoised pr g frame = none by rw [hvn]; rfl
  rw [vhsNoised]
  suffices hvg : vhsGeom pr frame = none by rw [hvg]; rfl
  rw [vhsGeom]
  have harr : ∀ row ∈ frame, ∀ px ∈ row, px.length = 3 :=
    fun row hrow => (hwf.2 row hrow).2
  have hne : (frame.map List.length).sum ≠ 0 := by
    cases frame with
    | nil =>
      exfalso
      have hfl := hwf.1
      simp only [List.length_nil] at hfl
      omega
    | cons r rs =>
      have hrw : r.length = w := (hwf.2 r (List.mem_cons_self r rs)).1
      simp only [List.map_cons, List.sum_cons]
      omega
  obtain ⟨t0, h0⟩ := bgr2ycrcb_isSome
    (fun row hrow px hpx => Or.inl (harr row hrow px hpx)) hne
  rw [h0]
  simp only [Option.bind_eq_bind, Option.some_bind]
  obtain ⟨hL0, hC0, hB0, _⟩ := bgr2ycrcb_eq_some h0
  have hfw : frame.map List.length = List.replicate h w := by
    refine List.eq_replicate_iff.mpr ⟨by simp [hwf.1], ?_⟩
    intro b hb
    obtain ⟨row, hrow, hlen⟩ := List.mem_map.mp hb
    rw [← hlen]
    exact (hwf.2 row hrow).1
  have hwidths : ∀ (mm : Mat), rowLens mm = frame.map List.length →
      ∀ rr ∈ mm, rr.length = w := by
    intro mm hmm rr hrr
    have hmem : rr.length ∈ rowLens mm := by
      rw [rowLens]
      exact List.mem_map_of_mem _ hrr
    rw [hmm, hfw] at hmem
    exact List.eq_of_mem_replicate hmem
  obtain ⟨y1, h1⟩ := @convStage_isSome pr.luma_bandwidth t0.1
    (fun hlt rr hrr => by
      rw [hwidths t0.1 hL0 rr hrr]
      exact hfits.1 hlt)
  rw [h1]
  simp only [Option.some_bind]
  obtain ⟨cr1, h2⟩ := @convStage_isSome pr.chroma_bandwidth t0.2.1
    (fun hlt rr hrr => by
      rw [hwidths t0.2.1 hC0 rr hrr]
      exact hfits.2 hlt)
  rw [h2]
  simp only [Option.some_bind]
  obtain ⟨cb1, h3⟩ := @convStage_isSome pr.chroma_bandwidth t0.2.2
    (fun hlt rr hrr => by
      rw [hwidths t0.2.2 hB0 rr hrr]
      exact hfits.2 hlt)
  rw [h3]
  simp only [Option.some_bind]
  rw [shift_channel_of_ne (by norm_num : (2 : ℤ) ≠ 0)]
  simp only [Option.some_bind]
  rw [shift_channel_of_ne (by norm_num : (-2 : ℤ) ≠ 0)]
  simp only [Option.some_bind]
  rw [hgs]
  have hry1 : rowLens (absMat (sobelX y1)) = frame.map List.length := by
    rw [rowLens_absMat, rowLens_sobelX, convStage_eq_some h1, hL0]
  cases hM : absMat (sobelX y1) with
  | nil =>
    exfalso
    rw [hM] at hry1
    have hlen0 := congrArg List.length hry1
    rw [length_rowLens, List.length_map, List.length_nil] at hlen0
    have hfl := hwf.1
    omega
  | cons m0 mrest =>
    have hm0 : m0.length = w :=
      hwidths _ (hM ▸ hry1) m0 (List.mem_cons_self _ _)
    have hm0ne : m0 ≠ [] := by
      intro hcon
      rw [hcon, List.length_nil] at hm0
      omega
    rw [shift_channel_zero (List.mem_cons_self m0 mrest) hm0ne]
    rfl

/-- Witness for the zero-shift claim at a one-sample channel and the
one-pixel black frame with the zero-ghost-shift parameters. -/
theorem c10_shift_zero_witness :
    shift_channel 0 [[(1 : ℚ)]] = none ∧
    apply_better_vhs_effect paramsGhostZero rng0 imgBlack = none :=
  c10_shift_zero [[(1 : ℚ)]] [(1 : ℚ)] paramsGhostZero rng0 imgBlack 1 1
    (by decide) (by decide) (by unfold wf3; decide) (by decide) (by decide)
    (by unfold convFits; decide) (by decide)

end ImageFlasherWGPU

namespace ImageFlasherWGPU

/-- A zero noise scale passes the check and applies the unchecked
noise. -/
theorem noiseChecked_zero (s : ℕ → ℚ) (p : ℕ) (m : Mat) :
    noiseChecked 0 s p m = some (noiseMat 0 s p m) := by
  rw [noiseChecked, if_neg (lt_irrefl 0)]

/-- C7: with kernel widths one, zero noise levels, zero ghost strength
and zero glitch probability, the transform equals the pipeline in which
only the fixed chroma offset step is applied: the first chroma channel
is still shifted right by two and the second left by two, independently
of the bandwidth parameters. -/
theorem c7_offset_only (frame : Img) (g : RNGState) (gs : ℤ) (gstr : ℚ)
    (hgs : gs ≠ 0) (hu : ∀ n, 0 ≤ g.uniform n) :
    vhsImgOut ⟨1, 1, 0, 0, gs, 0, 0, gstr⟩ g frame
      = chromaOffsetOnly frame := by
  rw [vhsImgOut, apply_better_vhs_effect, vhsNoised, vhsGeom, chromaOffsetOnly]
  cases h0 : bgr2ycrcb frame with
  | none => rfl
  | some t0 =>
  obtain ⟨hL0, hC0, hB0, _⟩ := bgr2ycrcb_eq_some h0
  simp only [Option.bind_eq_bind, Option.some_bind]
  rw [convStage_one, convStage_one, convStage_one]
  simp only [Option.some_bind]
  rw [shift_channel_of_ne (by norm_num : (2 : ℤ) ≠ 0),
    shift_channel_of_ne (by norm_num : (-2 : ℤ) ≠ 0),
    shift_channel_of_ne hgs]
  simp only [Option.some_bind]
  have hGy : rowLens ((absMat (sobelX t0.1)).map (shiftRow gs))
      = rowLens t0.1 := by
    rw [rowLens_map_rows (shiftRow_length gs), rowLens_absMat, rowLens_sobelX]
  rw [addWeighted_zero hGy]
  simp only [noiseChecked_zero, Option.some_bind, noiseMat_zero]
  rw [glitch3_id _ _ _ _ (fun k => not_lt.mpr (hu k))]
  simp only [Option.map_some']
  have hlb : ((t0.2.1).map (shiftRow 2)).length = t0.1.length := by
    rw [List.length_map, ← length_rowLens t0.2.1, ← length_rowLens t0.1,
      hC0, hL0]
  have hlc : ((t0.2.2).map (shiftRow (-2))).length = t0.1.length := by
    rw [List.length_map, ← length_rowLens t0.2.2, ← length_rowLens t0.1,
      hB0, hL0]
  obtain ⟨hz1, hz2, hz3⟩ := zip3_maps t0.1 ((t0.2.1).map (shiftRow 2))
    ((t0.2.2).map (shiftRow (-2))) hlb hlc
  rw [hz1, hz2, hz3]

/-- Witness for the offset-only claim on the one-pixel gray frame. -/
theorem c7_offset_only_witness :
    vhsImgOut ⟨1, 1, 0, 0, 3, 0, 0, mkRat 8 10⟩ rng0 imgGray
      = chromaOffsetOnly imgGray :=
  c7_offset_only imgGray rng0 3 (mkRat 8 10) (by decide) (fun n => le_rfl)

/-- C5 counterexample: the transform draws from the hidden global random
state, so invoking it twice in a row on the same image with the same
parameters, without restoring that state, yields two different outputs:
the claim that equal seeds give equal outputs fails for the second
invocation of any seeded run. -/
theorem c5_counterexample :
    vhsImgOut paramsNoise rngSeq imgGray
      ≠ vhsImgOut paramsNoise (vhsNextRng paramsNoise rngSeq imgGray)
          imgGray := by decide

/-- C5 amended: the output is a function of the image, the parameters and
the global random state at entry alone: two invocations whose entry
states have equal positions and whose streams agree on every draw the
invocation can consume (three normal draws per pixel and at most two
uniform draws per row) produce identical outputs. The state is global
rather than injected, so a second invocation without restoring it sees
the advanced positions and may differ, as the counterexample shows. -/
theorem c5_amended (pr : VHSParams) (frame : Img) (g1 g2 : RNGState)
    (hnp : g1.npos = g2.npos) (hup : g1.upos = g2.upos)
    (hn : ∀ k, k < g2.npos + 3 * pixCount frame → g1.normal k = g2.normal k)
    (hu : ∀ k, k < g2.upos + 2 * frame.length → g1.uniform k = g2.uniform k) :
    vhsImgOut pr g1 frame = vhsImgOut pr g2 frame := by
  rw [vhsImgOut, vhsImgOut, apply_better_vhs_effect, apply_better_vhs_effect,
    vhsNoised, vhsNoised, hnp, hup]
  cases hg : vhsGeom pr frame with
  | none => rfl
  | some t =>
  simp only [Option.bind_eq_bind, Option.some_bind]
  obtain ⟨hr1, hr2, hr3, harr⟩ := vhsGeom_eq_some hg
  by_cases hs1 : pr.luma_noise_level < 0
  · simp only [noiseChecked, if_pos hs1]
    rfl
  by_cases hs2 : pr.chroma_noise_level < 0
  · simp only [noiseChecked, if_neg hs1, if_pos hs2, Option.some_bind]
    rfl
  simp only [noiseChecked, if_neg hs1, if_neg hs2, Option.some_bind]
  have hsum1 : (rowLens t.1).sum = pixCount frame := by
    rw [hr1, pixCount]
  have hsum2 : (rowLens t.2.1).sum = pixCount frame := by
    rw [hr2, pixCount]
  have hsum3 : (rowLens t.2.2).sum = pixCount frame := by
    rw [hr3, pixCount]
  have e1 : noiseMat pr.luma_noise_level g1.normal g2.npos t.1
      = noiseMat pr.luma_noise_level g2.normal g2.npos t.1 :=
    noiseMat_congr _ _ _ (fun k hk1 hk2 => hn k (by omega))
  rw [e1]
  have hp1 := (noiseMat_spec pr.luma_noise_level g2.normal t.1 g2.npos).2
  have e2 : noiseMat pr.chroma_noise_level g1.normal
        (noiseMat pr.luma_noise_level g2.normal g2.npos t.1).2 t.2.1
      = noiseMat pr.chroma_noise_level g2.normal
        (noiseMat pr.luma_noise_level g2.normal g2.npos t.1).2 t.2.1 :=
    noiseMat_congr _ _ _ (fun k hk1 hk2 => hn k (by omega))
  rw [e2]
  have hp2 := (noiseMat_spec pr.chroma_noise_level g2.normal t.2.1
    (noiseMat pr.luma_noise_level g2.normal g2.npos t.1).2).2
  have e3 : noiseMat pr.chroma_noise_level g1.normal
        (noiseMat pr.chroma_noise_level g2.normal
          (noiseMat pr.luma_noise_level g2.normal g2.npos t.1).2 t.2.1).2 t.2.2
      = noiseMat pr.chroma_noise_level g2.normal
        (noiseMat pr.chroma_noise_level g2.normal
          (noiseMat pr.luma_noise_level g2.normal g2.npos t.1).2 t.2.1).2
        t.2.2 :=
    noiseMat_congr _ _ _ (fun k hk1 hk2 => hn k (by omega))
  rw [e3]
  have l1 : (noiseMat pr.luma_noise_level g2.normal g2.npos t.1).1.length
      = frame.length := by
    rw [← length_rowLens, (noiseMat_spec _ _ _ _).1, hr1, List.length_map]
  have l2 : (noiseMat pr.chroma_noise_level g2.normal
      (noiseMat pr.luma_noise_level g2.normal g2.npos t.1).2 t.2.1).1.length
      = frame.length := by
    rw [← length_rowLens, (noiseMat_spec _ _ _ _).1, hr2, List.length_map]
  have l3 : (noiseMat pr.chroma_noise_level g2.normal
      (noiseMat pr.chroma_noise_level g2.normal
        (noiseMat pr.luma_noise_level g2.normal g2.npos t.1).2 t.2.1).2
      t.2.2).1.length = frame.length := by
    rw [← length_rowLens, (noiseMat_spec _ _ _ _).1, hr3, List.length_map]
  have hrows : ((noiseMat pr.luma_noise_level g2.normal g2.npos t.1).1.zip
      ((noiseMat pr.chroma_noise_level g2.normal
        (noiseMat pr.luma_noise_level g2.normal g2.npos t.1).2 t.2.1).1.zip
       (noiseMat pr.chroma_noise_level g2.normal
        (noiseMat pr.chroma_noise_level g2.normal
          (noiseMat pr.luma_noise_level g2.normal g2.npos t.1).2 t.2.1).2
        t.2.2).1)).length = frame.length := by
    rw [List.length_zip, List.length_zip, l1, l2, l3]
    omega
  have e4 := @glitch3_congr pr.line_glitch_probability pr.line_glitch_strength
    (((noiseMat pr.luma_noise_level g2.normal g2.npos t.1).1.headD []).length)
    g1.uniform g2.uniform
    ((noiseMat pr.luma_noise_level g2.normal g2.npos t.1).1.zip
      ((noiseMat pr.chroma_noise_level g2.normal
        (noiseMat pr.luma_noise_level g2.normal g2.npos t.1).2 t.2.1).1.zip
       (noiseMat pr.chroma_noise_level g2.normal
        (noiseMat pr.chroma_noise_level g2.normal
          (noiseMat pr.luma_noise_level g2.normal g2.npos t.1).2 t.2.1).2
        t.2.2).1))
    g2.upos (fun k hk1 hk2 => hu k (by rw [hrows] at hk2; omega))
  rw [e4]
  simp only [Option.map_some']

/-- Witness for the amended determinism claim: two entry states whose
normal streams agree on the three draws a one-pixel image can consume
produce the same output on the gray frame, although the streams differ
from the fourth draw on. -/
theorem c5_amended_witness :
    vhsImgOut paramsNoise ⟨nfA, zeroStream, 0, 0⟩ imgGray
      = vhsImgOut paramsNoise ⟨nfB, zeroStream, 0, 0⟩ imgGray :=
  c5_amended paramsNoise imgGray ⟨nfA, zeroStream, 0, 0⟩
    ⟨nfB, zeroStream, 0, 0⟩ rfl rfl
    (fun k hk => by
      have hk3 : k < 3 := by
        have hpix : pixCount imgGray = 1 := by decide
        simp only [hpix] at hk
        omega
      simp only [nfA, nfB, if_pos hk3])
    (fun k _ => rfl)

end ImageFlasherWGPU
